import Mathlib

/-!
# A verification model of the `astpos` position synthesizer

This file gives a shallow embedding of the `astpos` Go package
(`astpos.go`), which walks a programmatically built `go/ast` syntax tree
and synthesizes position values, a line-start table and an ordered
comment list, so that `go/format` can render the tree.

The embedding covers the node kinds relevant to the stated properties:
identifiers, basic literals, call expressions, composite literals,
key-value pairs, empty statements, block statements, fields, field
lists, struct types, function types/declarations, value specs, general
declarations and the file root.  The mutable `astPositioner` of the
source becomes an explicit state record that is threaded through the
traversal; the in-place mutation of node position fields becomes a
rebuilt tree.  Machine integers are modelled as `Nat` (the position
counter only ever grows by string lengths); the `token.File` size check
of `AddLine` is kept, with the size `maxInt - 2` used by `newPositioner`.
-/

set_option maxHeartbeats 4000000

namespace Astpos

/-- One line comment record (`ast.Comment`): position of the leading
`//` and the literal text. -/
structure Comment where
  slash : Nat
  text : String
deriving Repr, DecidableEq

/-- `ast.CommentGroup`: the lines of one doc comment. -/
structure CommentGroup where
  list : List Comment
deriving Repr, DecidableEq

/-- The state of `astPositioner`: position counter `p` (starts at 1),
the `token.File` line table (offsets of line starts, starts as `[0]`),
the two list-context stacks, the struct-field layout flag and the
accumulated comment groups. -/
structure PosState where
  p : Nat
  lines : List Nat
  listSizeStack : List Nat
  listIndexStack : List Nat
  inStruct : Bool
  comments : List CommentGroup
deriving Repr, DecidableEq

/-- `newPositioner` passes `maxInt - 2` (64-bit `int`) as the file size. -/
def fileSize : Nat := 2 ^ 63 - 3

/-- `moveStr`: advance the counter by a rendered string width. -/
def moveStr (str : String) (s : PosState) : PosState :=
  { s with p := s.p + str.length }

/-- `move`: advance by a token's string form (tokens are modelled by
their string form). -/
def move (tok : String) (s : PosState) : PosState := moveStr tok s

/-- `moveN`: advance by `n`. -/
def moveN (n : Nat) (s : PosState) : PosState := { s with p := s.p + n }

/-- `token.File.AddLine`: record `offset` as a line start if it is
beyond the previous line start and inside the file. -/
def addLine (offset : Nat) (s : PosState) : PosState :=
  if (s.lines.length = 0 ∨ s.lines.getLastD 0 < offset) ∧ offset < fileSize then
    { s with lines := s.lines ++ [offset] }
  else s

/-- `astPositioner.newline`: record the current counter as a line start,
then advance past the line terminator. -/
def newline (s : PosState) : PosState := moveN 1 (addLine s.p s)

/-- `astPositioner.listSize`: size of the innermost sibling list being
traversed, `-1` outside any list. -/
def listSize (s : PosState) : Int :=
  if s.listSizeStack.length = 0 then -1 else (s.listSizeStack.getLastD 0 : Int)

/-- `astPositioner.index`: current index within the innermost sibling
list, `-1` outside any list. -/
def index (s : PosState) : Int :=
  if s.listIndexStack.length = 0 then -1 else (s.listIndexStack.getLastD 0 : Int)

/-- `token.File.Line` (with file base 1): the 1-based line number whose
span contains `pos`; on the sorted line table this is the number of
line starts at or before offset `pos - 1`, which is what the binary
search `searchInts` returns (plus one). -/
def lineIndex (lines : List Nat) (offset : Nat) : Nat :=
  (lines.filter (fun o => o ≤ offset)).length

/-- `p.File.Line(pos)`. -/
def fileLine (s : PosState) (pos : Nat) : Nat := lineIndex s.lines (pos - 1)

/-- `p.File.LineStart(ln)` (with file base 1): position of the first
character of line `ln`. -/
def lineStart (s : PosState) (ln : Nat) : Nat := 1 + s.lines.getD (ln - 1) 0

/-- The loop body of `handleComment`: give each comment line the current
counter, advance past its text, then emit a newline. -/
def positionComments : List Comment → PosState → List Comment × PosState
  | [], s => ([], s)
  | c :: rest, s =>
      let slashPos := s.p
      let s := newline (moveStr c.text s)
      let (rest', s) := positionComments rest s
      (⟨slashPos, c.text⟩ :: rest', s)

/-- `astPositioner.handleComment`: a `nil` group is skipped; otherwise
the group is registered on the positioner (the Go code appends the
pointer first and then mutates it in place, so the registered group is
the positioned one), a newline is forced if the counter is not at a
recorded line start, and every comment line is positioned. -/
def handleComment : Option CommentGroup → PosState → Option CommentGroup × PosState
  | none, s => (none, s)
  | some g, s =>
      let s1 := if lineStart s (fileLine s s.p) ≠ s.p then newline s else s
      let (cs, s2) := positionComments g.list s1
      (some ⟨cs⟩, { s2 with comments := s2.comments ++ [⟨cs⟩] })

/-- The embedded `ast` node subset.  Position fields mirror the Go
structs; `0` is `token.NoPos`.  Children that are pointers in Go are
`Option`s.  (`Field.Tag`/`Field.Comment`, `FuncType.TypeParams` and the
node kinds without layout relevance to the verified properties are
omitted from the subset; `ValueSpec.Doc` is kept because the traversal
deliberately ignores it.) -/
inductive Node where
  | ident (namePos : Nat) (name : String)
  | basicLit (valuePos : Nat) (value : String)
  | callExpr (func : Node) (lparen : Nat) (args : List Node) (ellipsis : Nat) (rparen : Nat)
  | compositeLit (typ : Option Node) (lbrace : Nat) (elts : List Node) (rbrace : Nat)
  | keyValueExpr (key : Node) (colon : Nat) (value : Node)
  | emptyStmt (semicolon : Nat) (implicit : Bool)
  | blockStmt (lbrace : Nat) (stmts : List Node) (rbrace : Nat)
  | field (doc : Option CommentGroup) (names : List Node) (typ : Option Node)
  | fieldList (opening : Nat) (fields : List Node) (closing : Nat)
  | structType (structPos : Nat) (fields : Option Node)
  | funcType (funcPos : Nat) (params : Option Node) (results : Option Node)
  | funcDecl (doc : Option CommentGroup) (recv : Option Node) (name : Node)
      (typ : Node) (body : Option Node)
  | valueSpec (doc : Option CommentGroup) (names : List Node) (typ : Option Node)
      (values : List Node)
  | genDecl (doc : Option CommentGroup) (tokPos : Nat) (tok : String) (lparen : Nat)
      (specs : List Node) (rparen : Nat)
  | file (doc : Option CommentGroup) (package : Nat) (name : Node) (decls : List Node)
      (fileStart : Nat) (fileEnd : Nat) (comments : List CommentGroup)
deriving Repr

/-- Type switch case `*ast.CompositeLit`. -/
def isCompositeLit : Node → Bool
  | .compositeLit .. => true
  | _ => false

/-- Type switch case `*ast.KeyValueExpr`. -/
def isKeyValueExpr : Node → Bool
  | .keyValueExpr .. => true
  | _ => false

/-- `hasNestedComposite` (over the `Elts` of a composite literal): some
element is a composite literal, or a key-value pair whose value is one. -/
def hasNestedComposite (elts : List Node) : Bool :=
  elts.any fun child =>
    match child with
    | .compositeLit .. => true
    | .keyValueExpr _ _ v => isCompositeLit v
    | _ => false

/-- `hasNestedKeyValue` (over the `Elts` of a composite literal). -/
def hasNestedKeyValue (elts : List Node) : Bool :=
  elts.any fun child => isKeyValueExpr child

/-- `traverseList`, entry: push a `{size, index = 0}` frame on both
stacks. -/
def pushFrame (n : Nat) (s : PosState) : PosState :=
  { s with
    listSizeStack := s.listSizeStack ++ [n]
    listIndexStack := s.listIndexStack ++ [0] }

/-- `traverseList`, per element: `p.listIndexStack[i] += 1`. -/
def bumpIndex (i : Nat) (s : PosState) : PosState :=
  { s with listIndexStack := s.listIndexStack.set i (s.listIndexStack.getD i 0 + 1) }

/-- `traverseList`, exit: truncate both stacks back to length `i`. -/
def popFrame (i : Nat) (s : PosState) : PosState :=
  { s with
    listSizeStack := s.listSizeStack.take i
    listIndexStack := s.listIndexStack.take i }

/- Token string forms used by the traversal (`token.Token.String()`). -/
def tokLBrace : String := "\x7b"
def tokRBrace : String := "\x7d"
def tokLParen : String := "("
def tokRParen : String := ")"
def tokColon : String := ":"
def tokSemicolon : String := ";"
def tokEllipsis : String := "..."
def tokStruct : String := "struct"
def tokFunc : String := "func"
def tokPackage : String := "package"

mutual

/-- The positioning traversal: Go's `astPositioner.down` dispatch fused
with the recursion of `ast.Inspect`.  Cases that `return false` in Go
recurse explicitly here in the same order; cases that fall through to
generic recursion (`ident`, `basicLit`, `emptyStmt`, `field`,
`funcType`, `valueSpec`) visit their children in struct field order
(walking a `CommentGroup` child is a no-op in `down`, so those visits
are dropped).  Sibling lists that Go runs through `traverseList` are
traversed with an explicit frame push/loop/pop; plain child slices of
fall-through kinds are traversed without a frame. -/
def traverse : Node → PosState → Node × PosState
  | .ident _ name, s =>
      (.ident s.p name, moveStr name s)
  | .basicLit _ value, s =>
      (.basicLit s.p value, moveStr value s)
  | .callExpr func _ args ellipsis _, s =>
      let (func', s) := traverse func s
      let lparen' := s.p
      let s0 := pushFrame args.length s
      let i := s0.listSizeStack.length - 1
      let (args', s1) := traverseLoop i args s0
      let s := popFrame i s1
      let (ellipsis', s) :=
        if ellipsis ≠ 0 then (s.p, move tokEllipsis s) else (ellipsis, s)
      let rparen' := s.p
      (.callExpr func' lparen' args' ellipsis' rparen', s)
  | .compositeLit typ _ elts _, s =>
      let hasComposites := hasNestedComposite elts
      let hasKeyValues := hasNestedKeyValue elts
      let isMulti : Bool := decide (4 ≤ elts.length)
      let isSingle : Bool := decide (elts.length = 1)
      let doNewlines := hasComposites || (hasKeyValues && !isSingle) || isMulti
      let (typ', s) := traverseOpt typ s
      let lbrace' := s.p
      let s := move tokLBrace s
      let s := if doNewlines then newline s else s
      let s0 := pushFrame elts.length s
      let i := s0.listSizeStack.length - 1
      let (elts', s1) := traverseLoop i elts s0
      let s := popFrame i s1
      let s := if doNewlines then newline s else s
      let rbrace' := s.p
      let s := move tokRBrace s
      let s := if isMulti || decide (listSize s > 0) then newline s else s
      (.compositeLit typ' lbrace' elts' rbrace', s)
  | .keyValueExpr key _ value, s =>
      let (key', s) := traverse key s
      let colon' := s.p
      let s := move tokColon s
      let (value', s) := traverse value s
      let s := if decide (listSize s > 1) && !isCompositeLit value' then newline s else s
      (.keyValueExpr key' colon' value', s)
  | .emptyStmt _ implicit, s =>
      let semicolon' := s.p
      let s := if !implicit then move tokSemicolon s else s
      (.emptyStmt semicolon' implicit, s)
  | .blockStmt _ stmts _, s =>
      let lbrace' := s.p
      let s := newline (move tokLBrace s)
      let s0 := pushFrame stmts.length s
      let i := s0.listSizeStack.length - 1
      let (stmts', s1) := traverseLoop i stmts s0
      let s := popFrame i s1
      let rbrace' := s.p
      let s := newline (move tokRBrace s)
      (.blockStmt lbrace' stmts' rbrace', s)
  | .field doc names typ, s =>
      let (doc', s) := handleComment doc s
      let (names', s) := traverseSeq names s
      let (typ', s) := traverseOpt typ s
      (.field doc' names' typ', s)
  | .fieldList opening fields closing, s =>
      let (opening', s) :=
        if opening ≠ 0 then
          let opening' := s.p
          let s := moveN 1 s
          let s := if s.inStruct then newline s else s
          (opening', s)
        else (opening, s)
      let s0 := pushFrame fields.length s
      let i := s0.listSizeStack.length - 1
      let (fields', s1) := traverseLoop i fields s0
      let s := popFrame i s1
      let (closing', s) :=
        if closing ≠ 0 then
          let closing' := s.p
          let s := moveN 1 s
          let s := if s.inStruct then newline (newline s) else s
          (closing', s)
        else (closing, s)
      (.fieldList opening' fields' closing', s)
  | .structType _ fields, s =>
      let structPos' := s.p
      let s := move tokStruct s
      let s := { s with inStruct := true }
      let (fields', s) := traverseOpt fields s
      let s := { s with inStruct := false }
      (.structType structPos' fields', s)
  | .funcType _ params results, s =>
      let funcPos' := s.p
      let s := move tokFunc s
      let (params', s) := traverseOpt params s
      let (results', s) := traverseOpt results s
      (.funcType funcPos' params' results', s)
  | .funcDecl doc recv name typ body, s =>
      let (doc', s) := handleComment doc s
      let (recv', s) := traverseOpt recv s
      let (name', s) := traverse name s
      let (typ', s) := traverse typ s
      let (body', s) := traverseOpt body s
      let s := newline s
      (.funcDecl doc' recv' name' typ' body', s)
  | .valueSpec doc names typ values, s =>
      let (names', s) := traverseSeq names s
      let (typ', s) := traverseOpt typ s
      let (values', s) := traverseSeq values s
      (.valueSpec doc names' typ' values', s)
  | .genDecl doc _ tok lparen specs rparen, s =>
      let (doc', s) := handleComment doc s
      let tokPos' := s.p
      let s := move tok s
      let (lparen', s) :=
        if lparen ≠ 0 then
          let lparen' := s.p
          let s := newline (move tokLParen s)
          (lparen', s)
        else (lparen, s)
      let s0 := pushFrame specs.length s
      let i := s0.listSizeStack.length - 1
      let (specs', s1) := traverseLoop i specs s0
      let s := popFrame i s1
      let (rparen', s) :=
        if rparen ≠ 0 then
          let rparen' := s.p
          let s := newline (move tokRParen s)
          (rparen', s)
        else (rparen, s)
      (.genDecl doc' tokPos' tok lparen' specs' rparen', s)
  | .file doc _ name decls fileStart fileEnd comments, s =>
      let (doc', s) := handleComment doc s
      let package' := s.p
      let s := moveStr " " (move tokPackage s)
      let (name', s) := traverse name s
      let s := newline s
      let s0 := pushFrame decls.length s
      let i := s0.listSizeStack.length - 1
      let (decls', s1) := traverseLoop i decls s0
      let s := popFrame i s1
      (.file doc' package' name' decls' fileStart fileEnd comments, s)
  termination_by structural n => n

/-- `p.traverse` on a possibly-nil child. -/
def traverseOpt : Option Node → PosState → Option Node × PosState
  | none, s => (none, s)
  | some n, s =>
      let (n', s) := traverse n s
      (some n', s)
  termination_by structural o => o

/-- Generic child-slice recursion of `ast.Inspect` (no list frame). -/
def traverseSeq : List Node → PosState → List Node × PosState
  | [], s => ([], s)
  | n :: rest, s =>
      let (n', s) := traverse n s
      let (rest', s) := traverseSeq rest s
      (n' :: rest', s)
  termination_by structural ns => ns

/-- The `for` loop of `traverseList`: traverse each element, then bump
the index at the frame slot `i` fixed at push time. -/
def traverseLoop : Nat → List Node → PosState → List Node × PosState
  | _, [], s => ([], s)
  | i, n :: rest, s =>
      let (n', s) := traverse n s
      let s := bumpIndex i s
      let (rest', s) := traverseLoop i rest s
      (n' :: rest', s)
  termination_by structural _ ns => ns

end

/-- Go's generic `traverseList`: push a frame, run the loop, pop the
frame.  (Inside `traverse` the same composition appears inline, because
the frame push does not shrink the list being recursed on.) -/
def traverseList (ns : List Node) (s : PosState) : List Node × PosState :=
  let s0 := pushFrame ns.length s
  let i := s0.listSizeStack.length - 1
  let (ns', s1) := traverseLoop i ns s0
  (ns', popFrame i s1)

/-- `newPositioner`: counter 1, fresh single-line `token.File`
(`lines = [0]`), empty stacks and comment list. -/
def initState : PosState :=
  { p := 1, lines := [0], listSizeStack := [], listIndexStack := []
    inStruct := false, comments := [] }

/-- `p.root.FileStart = ...` (no-op on a non-file node). -/
def setFileStart (v : Nat) : Node → Node
  | .file doc pkg name decls _ fe cs => .file doc pkg name decls v fe cs
  | n => n

/-- `p.root.FileEnd = ...`. -/
def setFileEnd (v : Nat) : Node → Node
  | .file doc pkg name decls fs _ cs => .file doc pkg name decls fs v cs
  | n => n

/-- `p.root.Comments = ...`. -/
def setComments (cs : List CommentGroup) : Node → Node
  | .file doc pkg name decls fs fe _ => .file doc pkg name decls fs fe cs
  | n => n

/-- `astPositioner.positionTokens`: set the root's start, traverse, then
record the final counter as the root's end and install the comments. -/
def positionTokens (root : Node) (s : PosState) : Node × PosState :=
  let root := setFileStart 1 root
  let (root, s) := traverse root s
  let root := setFileEnd s.p root
  let root := setComments s.comments root
  (root, s)

/-- `RewritePositions`: run `positionTokens` on a fresh positioner. -/
def rewritePositions (f : Node) : Node × PosState :=
  positionTokens f initState

end Astpos

namespace Astpos

/-! ### A step-closure principle for the traversal

Every state produced by the traversal is reached from its input state
by a sequence of the primitive operations below.  Any reflexive,
transitive relation containing those steps therefore relates every
input state to the corresponding output state.  Monotonicity of the
counter, growth of the line table, growth of the comment list and
preservation of the state invariant are all instances. -/
structure StepsOk (R : PosState → PosState → Prop) : Prop where
  refl : ∀ s, R s s
  trans : ∀ a b c, R a b → R b c → R a c
  moveStr : ∀ str s, R s (Astpos.moveStr str s)
  moveN : ∀ n s, R s (Astpos.moveN n s)
  newline : ∀ s, R s (Astpos.newline s)
  pushFrame : ∀ k s, R s (Astpos.pushFrame k s)
  bumpIndex : ∀ i s, R s (Astpos.bumpIndex i s)
  popFrame : ∀ i s, R s (Astpos.popFrame i s)
  setInStruct : ∀ b s, R s { s with inStruct := b }
  pushComment : ∀ g s, R s { s with comments := s.comments ++ [g] }

/-! ### The line-table/counter invariant -/
/-- Invariant of every reachable positioner state: the line table starts
with offset 0 (the single line made by `AddFile`), is strictly
increasing, and lies strictly below the counter. -/
def StateOk (s : PosState) : Prop :=
  s.lines.head? = some 0 ∧ s.lines.Chain' (· < ·) ∧ ∀ o ∈ s.lines, o < s.p

/-! ### The list-context stacks -/
/-- Both stacks have the same height (true of every reachable state). -/
def Bal (s : PosState) : Prop :=
  s.listSizeStack.length = s.listIndexStack.length

/-- The per-element index bump of `traverseList`, iterated over a whole
sibling list. -/
def bumpL (i : Nat) : Nat → List Nat → List Nat
  | 0, l => l
  | k + 1, l => bumpL i k (l.set i (l.getD i 0 + 1))

/-! ### Composite-literal elements are expressions

`go/ast` types `CompositeLit.Elts`, `CallExpr.Args` and the operands of
a key-value pair as expressions.  The embedded `Node` type is untyped,
so the well-formedness predicate below recovers that typing for the
expression kinds of the subset. -/
mutual

def wfExpr : Node → Bool
  | .ident .. => true
  | .basicLit .. => true
  | .callExpr func _ args _ _ => wfExpr func && wfExprList args
  | .compositeLit typ _ elts _ => wfExprOpt typ && wfExprList elts
  | .keyValueExpr key _ value => wfExpr key && wfExpr value
  | _ => false
  termination_by structural n => n

def wfExprOpt : Option Node → Bool
  | none => true
  | some n => wfExpr n
  termination_by structural o => o

def wfExprList : List Node → Bool
  | [] => true
  | n :: rest => wfExpr n && wfExprList rest
  termination_by structural ns => ns

end

/-! ### Comment positioning -/
/-- `q` is the position of the first character of a recorded line. -/
def IsLineStartPos (lines : List Nat) (q : Nat) : Prop :=
  ∃ o ∈ lines, o + 1 = q

/-! ### Flat scalar elements -/
/-- A flat scalar element: a leaf expression that renders as one token. -/
def flatScalar : Node → Bool
  | .ident .. => true
  | .basicLit .. => true
  | _ => false

/-- A `var`/`const` spec whose names, type and values are all flat
scalars; its traversal records no line starts. -/
def simpleSpec : Node → Bool
  | .valueSpec _ names typ values =>
      names.all flatScalar && typ.all flatScalar && values.all flatScalar
  | _ => false

/-- The doc group is positive after positioning. -/
def commentPos (g : Option CommentGroup) : Bool :=
  match g with
  | none => true
  | some g => g.list.all fun c => decide (0 < c.slash)

mutual

def mandatoryPos : Node → Bool
  | .ident np _ => decide (0 < np)
  | .basicLit vp _ => decide (0 < vp)
  | .callExpr func lp args _ rp =>
      mandatoryPos func && decide (0 < lp) && mandatoryPosList args && decide (0 < rp)
  | .compositeLit typ lb elts rb =>
      mandatoryPosOpt typ && decide (0 < lb) && mandatoryPosList elts && decide (0 < rb)
  | .keyValueExpr k c v => mandatoryPos k && decide (0 < c) && mandatoryPos v
  | .emptyStmt sc _ => decide (0 < sc)
  | .blockStmt lb stmts rb => decide (0 < lb) && mandatoryPosList stmts && decide (0 < rb)
  | .field doc names typ => commentPos doc && mandatoryPosList names && mandatoryPosOpt typ
  | .fieldList _ fs _ => mandatoryPosList fs
  | .structType sp fs => decide (0 < sp) && mandatoryPosOpt fs
  | .funcType fp ps rs => decide (0 < fp) && mandatoryPosOpt ps && mandatoryPosOpt rs
  | .funcDecl doc recv name typ body =>
      commentPos doc && mandatoryPosOpt recv && mandatoryPos name && mandatoryPos typ &&
        mandatoryPosOpt body
  | .valueSpec _ names typ values =>
      mandatoryPosList names && mandatoryPosOpt typ && mandatoryPosList values
  | .genDecl doc tp _ _ specs _ => commentPos doc && decide (0 < tp) && mandatoryPosList specs
  | .file doc pkg name decls _ _ _ =>
      commentPos doc && decide (0 < pkg) && mandatoryPos name && mandatoryPosList decls
  termination_by structural n => n

def mandatoryPosOpt : Option Node → Bool
  | none => true
  | some n => mandatoryPos n
  termination_by structural o => o

def mandatoryPosList : List Node → Bool
  | [] => true
  | n :: rest => mandatoryPos n && mandatoryPosList rest
  termination_by structural ns => ns

end

/-! ### Assigned positions stay within the traversal's span (support for C7) -/
/-- A position field check: unset (`0`, never assigned) or within
`[lo, hi]`. -/
def posOk (lo hi v : Nat) : Bool := decide (v = 0) || (decide (lo ≤ v) && decide (v ≤ hi))

/-- All slash positions of an (optional) comment group are unset or in
`[lo, hi]`. -/
def commentWithin (lo hi : Nat) : Option CommentGroup → Bool
  | none => true
  | some g => g.list.all fun c => posOk lo hi c.slash

/-- Slash positions of an input doc comment are unset. -/
def unsetComment (g : Option CommentGroup) : Bool :=
  match g with
  | none => true
  | some g => g.list.all fun c => c.slash == 0

mutual

def allUnset : Node → Bool
  | .ident np _ => np == 0
  | .basicLit vp _ => vp == 0
  | .callExpr func lp args el rp =>
      allUnset func && lp == 0 && allUnsetList args && el == 0 && rp == 0
  | .compositeLit typ lb elts rb => allUnsetOpt typ && lb == 0 && allUnsetList elts && rb == 0
  | .keyValueExpr k c v => allUnset k && c == 0 && allUnset v
  | .emptyStmt sc _ => sc == 0
  | .blockStmt lb stmts rb => lb == 0 && allUnsetList stmts && rb == 0
  | .field doc names typ => unsetComment doc && allUnsetList names && allUnsetOpt typ
  | .fieldList op fs cl => op == 0 && allUnsetList fs && cl == 0
  | .structType sp fs => sp == 0 && allUnsetOpt fs
  | .funcType fp ps rs => fp == 0 && allUnsetOpt ps && allUnsetOpt rs
  | .funcDecl doc recv name typ body =>
      unsetComment doc && allUnsetOpt recv && allUnset name && allUnset typ && allUnsetOpt body
  | .valueSpec doc names typ values =>
      unsetComment doc && allUnsetList names && allUnsetOpt typ && allUnsetList values
  | .genDecl doc tp _ lp specs rp =>
      unsetComment doc && tp == 0 && lp == 0 && allUnsetList specs && rp == 0
  | .file doc pkg name decls fs fe _ =>
      unsetComment doc && pkg == 0 && allUnset name && allUnsetList decls && fs == 0 && fe == 0
  termination_by structural n => n

def allUnsetOpt : Option Node → Bool
  | none => true
  | some n => allUnset n
  termination_by structural o => o

def allUnsetList : List Node → Bool
  | [] => true
  | n :: rest => allUnset n && allUnsetList rest
  termination_by structural ns => ns

end

mutual

def fieldsWithin (lo hi : Nat) : Node → Bool
  | .ident np _ => posOk lo hi np
  | .basicLit vp _ => posOk lo hi vp
  | .callExpr func lp args el rp =>
      fieldsWithin lo hi func && posOk lo hi lp && fieldsWithinList lo hi args &&
        posOk lo hi el && posOk lo hi rp
  | .compositeLit typ lb elts rb =>
      fieldsWithinOpt lo hi typ && posOk lo hi lb && fieldsWithinList lo hi elts &&
        posOk lo hi rb
  | .keyValueExpr k c v => fieldsWithin lo hi k && posOk lo hi c && fieldsWithin lo hi v
  | .emptyStmt sc _ => posOk lo hi sc
  | .blockStmt lb stmts rb => posOk lo hi lb && fieldsWithinList lo hi stmts && posOk lo hi rb
  | .field doc names typ =>
      commentWithin lo hi doc && fieldsWithinList lo hi names && fieldsWithinOpt lo hi typ
  | .fieldList op fs cl => posOk lo hi op && fieldsWithinList lo hi fs && posOk lo hi cl
  | .structType sp fs => posOk lo hi sp && fieldsWithinOpt lo hi fs
  | .funcType fp ps rs => posOk lo hi fp && fieldsWithinOpt lo hi ps && fieldsWithinOpt lo hi rs
  | .funcDecl doc recv name typ body =>
      commentWithin lo hi doc && fieldsWithinOpt lo hi recv && fieldsWithin lo hi name &&
        fieldsWithin lo hi typ && fieldsWithinOpt lo hi body
  | .valueSpec doc names typ values =>
      commentWithin lo hi doc && fieldsWithinList lo hi names && fieldsWithinOpt lo hi typ &&
        fieldsWithinList lo hi values
  | .genDecl doc tp _ lp specs rp =>
      commentWithin lo hi doc && posOk lo hi tp && posOk lo hi lp &&
        fieldsWithinList lo hi specs && posOk lo hi rp
  | .file doc pkg name decls fs fe _ =>
      commentWithin lo hi doc && posOk lo hi pkg && fieldsWithin lo hi name &&
        fieldsWithinList lo hi decls && posOk lo hi fs && posOk lo hi fe
  termination_by structural n => n

def fieldsWithinOpt (lo hi : Nat) : Option Node → Bool
  | none => true
  | some n => fieldsWithin lo hi n
  termination_by structural o => o

def fieldsWithinList (lo hi : Nat) : List Node → Bool
  | [] => true
  | n :: rest => fieldsWithin lo hi n && fieldsWithinList lo hi rest
  termination_by structural ns => ns

end

/-! ### Preorder node collection and position extractors

Concrete counterexamples read position fields off the synthesized tree;
`nodes` lists every node of a tree in preorder and the extractors below
project the fields a particular claim talks about. -/
mutual

def nodes : Node → List Node
  | .ident np nm => [.ident np nm]
  | .basicLit vp v => [.basicLit vp v]
  | .callExpr f lp args el rp => .callExpr f lp args el rp :: (nodes f ++ nodesList args)
  | .compositeLit t lb elts rb => .compositeLit t lb elts rb :: (nodesOpt t ++ nodesList elts)
  | .keyValueExpr k c v => .keyValueExpr k c v :: (nodes k ++ nodes v)
  | .emptyStmt sc b => [.emptyStmt sc b]
  | .blockStmt lb st rb => .blockStmt lb st rb :: nodesList st
  | .field d ns t => .field d ns t :: (nodesList ns ++ nodesOpt t)
  | .fieldList op fs cl => .fieldList op fs cl :: nodesList fs
  | .structType sp fs => .structType sp fs :: nodesOpt fs
  | .funcType fp ps rs => .funcType fp ps rs :: (nodesOpt ps ++ nodesOpt rs)
  | .funcDecl d r n t b =>
      .funcDecl d r n t b :: (nodesOpt r ++ nodes n ++ nodes t ++ nodesOpt b)
  | .valueSpec d ns t vs => .valueSpec d ns t vs :: (nodesList ns ++ nodesOpt t ++ nodesList vs)
  | .genDecl d tp tk lp sp rp => .genDecl d tp tk lp sp rp :: nodesList sp
  | .file d pk nm ds fs fe cs => .file d pk nm ds fs fe cs :: (nodes nm ++ nodesList ds)
  termination_by structural n => n

def nodesOpt : Option Node → List Node
  | none => []
  | some n => nodes n
  termination_by structural o => o

def nodesList : List Node → List Node
  | [] => []
  | n :: rest => nodes n ++ nodesList rest
  termination_by structural ns => ns

end

/-- Opening and closing parenthesis position of every call expression. -/
def callParens (t : Node) : List (Nat × Nat) :=
  (nodes t).filterMap fun n => match n with
    | .callExpr _ lp _ _ rp => some (lp, rp)
    | _ => none

/-- Closing-delimiter position of every struct type's field list. -/
def structClosings (t : Node) : List Nat :=
  (nodes t).filterMap fun n => match n with
    | .structType _ (some (.fieldList _ _ cl)) => some cl
    | _ => none

/-- Position of the first name of every value spec. -/
def specNamePositions (t : Node) : List Nat :=
  (nodes t).filterMap fun n => match n with
    | .valueSpec _ (.ident np _ :: _) _ _ => some np
    | _ => none

/-- For every function declaration with an identifier name and explicit
signature: the name's position and the `func` keyword position (the
latter is where `go/ast` anchors the declaration's own span). -/
def funcDeclAnchors (t : Node) : List (Nat × Nat) :=
  (nodes t).filterMap fun n => match n with
    | .funcDecl _ _ (.ident np _) (.funcType fp _ _) _ => some (np, fp)
    | _ => none

/-- Brace positions of every composite literal. -/
def compositeBraces (t : Node) : List (Nat × Nat) :=
  (nodes t).filterMap fun n => match n with
    | .compositeLit _ lb _ rb => some (lb, rb)
    | _ => none

/-- Position of a leaf expression. -/
def leafPos : Node → Nat
  | .ident np _ => np
  | .basicLit vp _ => vp
  | _ => 0

/-- The element positions of every composite literal. -/
def compositeEltPositions (t : Node) : List (List Nat) :=
  (nodes t).filterMap fun n => match n with
    | .compositeLit _ _ elts _ => some (elts.map leafPos)
    | _ => none

/-- How many elements are key-value pairs with a non-composite value —
the count the spec's composite-literal rule is phrased in terms of. -/
def kvFlatCount (elts : List Node) : Nat :=
  (elts.filter fun n => match n with
    | .keyValueExpr _ _ v => !isCompositeLit v
    | _ => false).length

/-! ### Concrete input trees (all position fields unset) -/
/-- `package m; var _ = f()` -/
def c1ex : Node :=
  .file none 0 (.ident 0 "m")
    [.genDecl none 0 "var" 0
      [.valueSpec none [.ident 0 "_"] none [.callExpr (.ident 0 "f") 0 [] 0 0]] 0]
    0 0 []

/-- The element list `k: v, w`: exactly one key-value element with a
non-composite value, two elements overall. -/
def c2elts : List Node :=
  [.keyValueExpr (.ident 0 "k") 0 (.ident 0 "v"), .ident 0 "w"]

/-- `package m; var _ = T{k: v, w}` -/
def c2ex : Node :=
  .file none 0 (.ident 0 "m")
    [.genDecl none 0 "var" 0
      [.valueSpec none [.ident 0 "_"] none
        [.compositeLit (some (.ident 0 "T")) 0 c2elts 0]] 0]
    0 0 []

/-- `struct { z int }` -/
def c4inner : Node :=
  .structType 0 (some (.fieldList 5
    [.field none [.ident 0 "z"] (some (.ident 0 "int"))] 5))

/-- `package m; var x struct { y struct { z int } }` — a struct type
nested inline in another struct's field list. -/
def c4ex : Node :=
  .file none 0 (.ident 0 "m")
    [.genDecl none 0 "var" 0
      [.valueSpec none [.ident 0 "x"]
        (some (.structType 0 (some (.fieldList 5
          [.field none [.ident 0 "y"] (some c4inner)] 5))))
        []] 0]
    0 0 []

/-- The two specs `a = 1` and `b = 2`. -/
def c5specs : List Node :=
  [.valueSpec none [.ident 0 "a"] none [.basicLit 0 "1"],
   .valueSpec none [.ident 0 "b"] none [.basicLit 0 "2"]]

/-- `package m; var ( a = 1; b = 2 )` — a parenthesized declaration
group with two specs. -/
def c5ex : Node :=
  .file none 0 (.ident 0 "m")
    [.genDecl none 0 "var" 3 c5specs 3]
    0 0 []

/-- `package m; func f() {}` (every position field unset). -/
def c7ex : Node :=
  .file none 0 (.ident 0 "m")
    [.funcDecl none none (.ident 0 "f")
      (.funcType 0 (some (.fieldList 0 [] 0)) none)
      (some (.blockStmt 0 [] 0))]
    0 0 []

/-- The four flat scalar elements `1, 2, 3, 4`. -/
def c8elts : List Node :=
  [.basicLit 0 "1", .basicLit 0 "2", .basicLit 0 "3", .basicLit 0 "4"]

/-- `package m; var _ = T{1, 2, 3, 4}` -/
def c8ex : Node :=
  .file none 0 (.ident 0 "m")
    [.genDecl none 0 "var" 0
      [.valueSpec none [.ident 0 "_"] none
        [.compositeLit (some (.ident 0 "T")) 0 c8elts 0]] 0]
    0 0 []

/-- Is the root a file node (whose `FileStart`/`FileEnd`/`Comments` the
orchestration finalizes)? -/
def isFile : Node → Bool
  | .file .. => true
  | _ => false

/-- The root's recorded start and end boundary, when it is a file. -/
def fileSpan : Node → Option (Nat × Nat)
  | .file _ _ _ _ fs fe _ => some (fs, fe)
  | _ => none

/-- The file root's boundary check used by the orchestration
postcondition: start is 1 and end is the final counter. -/
def rootSpanOk (n : Node) (e : Nat) : Bool :=
  match n with
  | .file _ _ _ _ fs fe _ => fs == 1 && fe == e
  | _ => true

/-- Closing-brace position of a composite literal. -/
def rbraceOf : Node → Nat
  | .compositeLit _ _ _ r => r
  | _ => 0

/-- The two-line doc comment group used to exercise the comment attacher. -/
def c6g : CommentGroup := ⟨[⟨0, "// a"⟩, ⟨0, "// b"⟩]⟩

/-! ### Projection lemmas for the primitive state operations -/
@[simp] theorem moveStr_p (str : String) (s : PosState) :
    (moveStr str s).p = s.p + str.length := rfl

@[simp] theorem moveStr_lines (str : String) (s : PosState) :
    (moveStr str s).lines = s.lines := rfl

@[simp] theorem moveStr_sizeStack (str : String) (s : PosState) :
    (moveStr str s).listSizeStack = s.listSizeStack := rfl

@[simp] theorem moveStr_indexStack (str : String) (s : PosState) :
    (moveStr str s).listIndexStack = s.listIndexStack := rfl

@[simp] theorem moveStr_inStruct (str : String) (s : PosState) :
    (moveStr str s).inStruct = s.inStruct := rfl

@[simp] theorem moveStr_comments (str : String) (s : PosState) :
    (moveStr str s).comments = s.comments := rfl

theorem move_eq (tok : String) (s : PosState) : move tok s = moveStr tok s := rfl

@[simp] theorem move_p (tok : String) (s : PosState) :
    (move tok s).p = s.p + tok.length := rfl

@[simp] theorem move_lines (tok : String) (s : PosState) : (move tok s).lines = s.lines := rfl

@[simp] theorem move_sizeStack (tok : String) (s : PosState) :
    (move tok s).listSizeStack = s.listSizeStack := rfl

@[simp] theorem move_indexStack (tok : String) (s : PosState) :
    (move tok s).listIndexStack = s.listIndexStack := rfl

@[simp] theorem move_inStruct (tok : String) (s : PosState) :
    (move tok s).inStruct = s.inStruct := rfl

@[simp] theorem move_comments (tok : String) (s : PosState) :
    (move tok s).comments = s.comments := rfl

@[simp] theorem moveN_p (n : Nat) (s : PosState) : (moveN n s).p = s.p + n := rfl

@[simp] theorem moveN_lines (n : Nat) (s : PosState) : (moveN n s).lines = s.lines := rfl

@[simp] theorem moveN_sizeStack (n : Nat) (s : PosState) :
    (moveN n s).listSizeStack = s.listSizeStack := rfl

@[simp] theorem moveN_indexStack (n : Nat) (s : PosState) :
    (moveN n s).listIndexStack = s.listIndexStack := rfl

@[simp] theorem moveN_inStruct (n : Nat) (s : PosState) : (moveN n s).inStruct = s.inStruct := rfl

@[simp] theorem moveN_comments (n : Nat) (s : PosState) : (moveN n s).comments = s.comments := rfl

@[simp] theorem addLine_p (o : Nat) (s : PosState) : (addLine o s).p = s.p := by
  unfold addLine; split <;> rfl

@[simp] theorem addLine_sizeStack (o : Nat) (s : PosState) :
    (addLine o s).listSizeStack = s.listSizeStack := by
  unfold addLine; split <;> rfl

@[simp] theorem addLine_indexStack (o : Nat) (s : PosState) :
    (addLine o s).listIndexStack = s.listIndexStack := by
  unfold addLine; split <;> rfl

@[simp] theorem addLine_inStruct (o : Nat) (s : PosState) :
    (addLine o s).inStruct = s.inStruct := by
  unfold addLine; split <;> rfl

@[simp] theorem addLine_comments (o : Nat) (s : PosState) :
    (addLine o s).comments = s.comments := by
  unfold addLine; split <;> rfl

theorem addLine_lines (o : Nat) (s : PosState) :
    (addLine o s).lines = s.lines ∨ (addLine o s).lines = s.lines ++ [o] := by
  unfold addLine; split
  · exact Or.inr rfl
  · exact Or.inl rfl

@[simp] theorem newline_p (s : PosState) : (newline s).p = s.p + 1 := by
  simp [newline]

@[simp] theorem newline_sizeStack (s : PosState) :
    (newline s).listSizeStack = s.listSizeStack := by simp [newline]

@[simp] theorem newline_indexStack (s : PosState) :
    (newline s).listIndexStack = s.listIndexStack := by simp [newline]

@[simp] theorem newline_inStruct (s : PosState) : (newline s).inStruct = s.inStruct := by
  simp [newline]

@[simp] theorem newline_comments (s : PosState) : (newline s).comments = s.comments := by
  simp [newline]

theorem newline_lines (s : PosState) :
    (newline s).lines = s.lines ∨ (newline s).lines = s.lines ++ [s.p] := by
  simpa [newline] using addLine_lines s.p s

@[simp] theorem pushFrame_p (k : Nat) (s : PosState) : (pushFrame k s).p = s.p := rfl

@[simp] theorem pushFrame_lines (k : Nat) (s : PosState) : (pushFrame k s).lines = s.lines := rfl

@[simp] theorem pushFrame_inStruct (k : Nat) (s : PosState) :
    (pushFrame k s).inStruct = s.inStruct := rfl

@[simp] theorem pushFrame_comments (k : Nat) (s : PosState) :
    (pushFrame k s).comments = s.comments := rfl

@[simp] theorem pushFrame_sizeStack (k : Nat) (s : PosState) :
    (pushFrame k s).listSizeStack = s.listSizeStack ++ [k] := rfl

@[simp] theorem pushFrame_indexStack (k : Nat) (s : PosState) :
    (pushFrame k s).listIndexStack = s.listIndexStack ++ [0] := rfl

@[simp] theorem bumpIndex_p (i : Nat) (s : PosState) : (bumpIndex i s).p = s.p := rfl

@[simp] theorem bumpIndex_lines (i : Nat) (s : PosState) : (bumpIndex i s).lines = s.lines := rfl

@[simp] theorem bumpIndex_inStruct (i : Nat) (s : PosState) :
    (bumpIndex i s).inStruct = s.inStruct := rfl

@[simp] theorem bumpIndex_comments (i : Nat) (s : PosState) :
    (bumpIndex i s).comments = s.comments := rfl

@[simp] theorem bumpIndex_sizeStack (i : Nat) (s : PosState) :
    (bumpIndex i s).listSizeStack = s.listSizeStack := rfl

@[simp] theorem bumpIndex_indexStack (i : Nat) (s : PosState) :
    (bumpIndex i s).listIndexStack = s.listIndexStack.set i (s.listIndexStack.getD i 0 + 1) := rfl

@[simp] theorem popFrame_p (i : Nat) (s : PosState) : (popFrame i s).p = s.p := rfl

@[simp] theorem popFrame_lines (i : Nat) (s : PosState) : (popFrame i s).lines = s.lines := rfl

@[simp] theorem popFrame_inStruct (i : Nat) (s : PosState) :
    (popFrame i s).inStruct = s.inStruct := rfl

@[simp] theorem popFrame_comments (i : Nat) (s : PosState) :
    (popFrame i s).comments = s.comments := rfl

@[simp] theorem popFrame_sizeStack (i : Nat) (s : PosState) :
    (popFrame i s).listSizeStack = s.listSizeStack.take i := rfl

@[simp] theorem popFrame_indexStack (i : Nat) (s : PosState) :
    (popFrame i s).listIndexStack = s.listIndexStack.take i := rfl

/-! ### State-evolution forms of the traversal equations

The result state of each `traverse` case is the composition of the
primitive operations and recursive calls; the node rebuilt alongside
does not influence it.  These lemmas expose that composition (with the
inline frame push/loop/pop folded back into `traverseList`). -/
theorem traverse_ident_snd (q : Nat) (name : String) (s : PosState) :
    (traverse (.ident q name) s).2 = moveStr name s := rfl

theorem traverse_callExpr_snd (func : Node) (lp : Nat) (args : List Node) (el rp : Nat)
    (s : PosState) :
    (traverse (.callExpr func lp args el rp) s).2 =
      (let s := (traverse func s).2
       let s := (traverseList args s).2
       if el ≠ 0 then move tokEllipsis s else s) := by
  simp only [traverse, traverseList]
  rcases traverse func s with ⟨f', s1⟩
  rcases traverseLoop ((pushFrame args.length s1).listSizeStack.length - 1) args
    (pushFrame args.length s1) with ⟨args', s2⟩
  split <;> rfl

theorem traverse_basicLit_snd (q : Nat) (v : String) (s : PosState) :
    (traverse (.basicLit q v) s).2 = moveStr v s := rfl

theorem traverse_compositeLit_snd (typ : Option Node) (lb : Nat) (elts : List Node) (rb : Nat)
    (s : PosState) :
    (traverse (.compositeLit typ lb elts rb) s).2 =
      (let doNewlines := hasNestedComposite elts
        || (hasNestedKeyValue elts && !(decide (elts.length = 1)))
        || decide (4 ≤ elts.length)
       let s := (traverseOpt typ s).2
       let s := move tokLBrace s
       let s := if doNewlines then newline s else s
       let s := (traverseList elts s).2
       let s := if doNewlines then newline s else s
       let s := move tokRBrace s
       if decide (4 ≤ elts.length) || decide (listSize s > 0) then newline s else s) := rfl

theorem traverse_keyValueExpr_snd (key : Node) (c : Nat) (value : Node) (s : PosState) :
    (traverse (.keyValueExpr key c value) s).2 =
      (let s := (traverse key s).2
       let s := move tokColon s
       let r := traverse value s
       if decide (listSize r.2 > 1) && !isCompositeLit r.1 then newline r.2 else r.2) := rfl

theorem traverse_emptyStmt_snd (q : Nat) (b : Bool) (s : PosState) :
    (traverse (.emptyStmt q b) s).2 = (if !b then move tokSemicolon s else s) := rfl

theorem traverse_blockStmt_snd (lb : Nat) (stmts : List Node) (rb : Nat) (s : PosState) :
    (traverse (.blockStmt lb stmts rb) s).2 =
      (let s := newline (move tokLBrace s)
       let s := (traverseList stmts s).2
       newline (move tokRBrace s)) := rfl

theorem traverse_field_snd (doc : Option CommentGroup) (names : List Node) (typ : Option Node)
    (s : PosState) :
    (traverse (.field doc names typ) s).2 =
      (let s := (handleComment doc s).2
       let s := (traverseSeq names s).2
       (traverseOpt typ s).2) := rfl

theorem traverse_fieldList_snd (op : Nat) (fields : List Node) (cl : Nat) (s : PosState) :
    (traverse (.fieldList op fields cl) s).2 =
      (let s := if op ≠ 0 then
          (let s := moveN 1 s
           if s.inStruct then newline s else s)
        else s
       let s := (traverseList fields s).2
       if cl ≠ 0 then
          (let s := moveN 1 s
           if s.inStruct then newline (newline s) else s)
        else s) := by
  simp only [traverse, traverseList, apply_ite (Prod.snd : Nat × PosState → PosState)]

theorem traverse_structType_snd (q : Nat) (fields : Option Node) (s : PosState) :
    (traverse (.structType q fields) s).2 =
      (let s := { move tokStruct s with inStruct := true }
       let s := (traverseOpt fields s).2
       { s with inStruct := false }) := rfl

theorem traverse_funcType_snd (q : Nat) (params results : Option Node) (s : PosState) :
    (traverse (.funcType q params results) s).2 =
      (let s := move tokFunc s
       let s := (traverseOpt params s).2
       (traverseOpt results s).2) := rfl

theorem traverse_funcDecl_snd (doc : Option CommentGroup) (recv : Option Node) (name typ : Node)
    (body : Option Node) (s : PosState) :
    (traverse (.funcDecl doc recv name typ body) s).2 =
      (let s := (handleComment doc s).2
       let s := (traverseOpt recv s).2
       let s := (traverse name s).2
       let s := (traverse typ s).2
       let s := (traverseOpt body s).2
       newline s) := rfl

theorem traverse_valueSpec_snd (doc : Option CommentGroup) (names : List Node)
    (typ : Option Node) (values : List Node) (s : PosState) :
    (traverse (.valueSpec doc names typ values) s).2 =
      (let s := (traverseSeq names s).2
       let s := (traverseOpt typ s).2
       (traverseSeq values s).2) := rfl

theorem traverse_genDecl_snd (doc : Option CommentGroup) (tp : Nat) (tok : String) (lp : Nat)
    (specs : List Node) (rp : Nat) (s : PosState) :
    (traverse (.genDecl doc tp tok lp specs rp) s).2 =
      (let s := (handleComment doc s).2
       let s := move tok s
       let s := if lp ≠ 0 then newline (move tokLParen s) else s
       let s := (traverseList specs s).2
       if rp ≠ 0 then newline (move tokRParen s) else s) := by
  simp only [traverse, traverseList, apply_ite (Prod.snd : Nat × PosState → PosState)]

theorem traverse_file_snd (doc : Option CommentGroup) (pkg : Nat) (name : Node)
    (decls : List Node) (fs fe : Nat) (cs : List CommentGroup) (s : PosState) :
    (traverse (.file doc pkg name decls fs fe cs) s).2 =
      (let s := (handleComment doc s).2
       let s := moveStr " " (move tokPackage s)
       let s := (traverse name s).2
       let s := newline s
       (traverseList decls s).2) := rfl

theorem traverseOpt_none_snd (s : PosState) : (traverseOpt none s).2 = s := rfl

theorem traverseOpt_some_snd (n : Node) (s : PosState) :
    (traverseOpt (some n) s).2 = (traverse n s).2 := rfl

theorem traverseSeq_nil_snd (s : PosState) : (traverseSeq [] s).2 = s := rfl

theorem traverseSeq_cons_snd (n : Node) (rest : List Node) (s : PosState) :
    (traverseSeq (n :: rest) s).2 = (traverseSeq rest (traverse n s).2).2 := rfl

theorem traverseLoop_nil_snd (i : Nat) (s : PosState) : (traverseLoop i [] s).2 = s := rfl

theorem traverseLoop_cons_snd (i : Nat) (n : Node) (rest : List Node) (s : PosState) :
    (traverseLoop i (n :: rest) s).2 =
      (traverseLoop i rest (bumpIndex i (traverse n s).2)).2 := rfl

theorem traverseList_snd (ns : List Node) (s : PosState) :
    (traverseList ns s).2 =
      popFrame s.listSizeStack.length
        (traverseLoop s.listSizeStack.length ns (pushFrame ns.length s)).2 := by
  simp only [traverseList, pushFrame_sizeStack, List.length_append, List.length_singleton,
    Nat.add_sub_cancel]

theorem positionComments_cons_snd (c : Comment) (rest : List Comment) (s : PosState) :
    (positionComments (c :: rest) s).2 =
      (positionComments rest (newline (moveStr c.text s))).2 := rfl

theorem handleComment_none_snd (s : PosState) : (handleComment none s).2 = s := rfl

theorem handleComment_some_snd (g : CommentGroup) (s : PosState) :
    (handleComment (some g) s).2 =
      (let s1 := if lineStart s (fileLine s s.p) ≠ s.p then newline s else s
       let r := positionComments g.list s1
       { r.2 with comments := r.2.comments ++ [⟨r.1⟩] }) := rfl

theorem StepsOk.comp {R : PosState → PosState → Prop} (hR : StepsOk R)
    {a b c : PosState} (h1 : R a b) (h2 : R b c) : R a c :=
  hR.trans a b c h1 h2

theorem StepsOk.ite_step {R : PosState → PosState → Prop} (hR : StepsOk R)
    (c : Prop) [Decidable c] (f : PosState → PosState) (hf : ∀ s, R s (f s))
    (s : PosState) : R s (if c then f s else s) := by
  split
  · exact hf s
  · exact hR.refl s

theorem positionComments_rel (R : PosState → PosState → Prop) (hR : StepsOk R) :
    ∀ (cs : List Comment) (s : PosState), R s (positionComments cs s).2
  | [], s => hR.refl s
  | c :: rest, s => by
      rw [positionComments_cons_snd]
      exact hR.comp (hR.comp (hR.moveStr c.text s) (hR.newline _))
        (positionComments_rel R hR rest _)

theorem handleComment_rel (R : PosState → PosState → Prop) (hR : StepsOk R) :
    ∀ (g : Option CommentGroup) (s : PosState), R s (handleComment g s).2
  | none, s => hR.refl s
  | some g, s => by
      rw [handleComment_some_snd]
      dsimp only
      refine hR.comp ?_ (hR.comp (positionComments_rel R hR g.list _) (hR.pushComment _ _))
      split
      · exact hR.newline s
      · exact hR.refl s

theorem traverseList_rel_of_loop (R : PosState → PosState → Prop) (hR : StepsOk R)
    (ns : List Node) (s : PosState)
    (h : R (pushFrame ns.length s)
      (traverseLoop s.listSizeStack.length ns (pushFrame ns.length s)).2) :
    R s (traverseList ns s).2 := by
  rw [traverseList_snd]
  exact hR.comp (hR.pushFrame ns.length s) (hR.comp h (hR.popFrame _ _))

mutual

theorem traverse_rel (R : PosState → PosState → Prop) (hR : StepsOk R) :
    ∀ (n : Node) (s : PosState), R s (traverse n s).2
  | .ident _ name, s => by
      rw [traverse_ident_snd]; exact hR.moveStr name s
  | .basicLit _ v, s => by
      rw [traverse_basicLit_snd]; exact hR.moveStr v s
  | .callExpr func _ args el _, s => by
      rw [traverse_callExpr_snd]
      dsimp only
      exact hR.comp (traverse_rel R hR func s)
        (hR.comp (traverseList_rel_of_loop R hR args _ (traverseLoop_rel R hR _ args _))
          (hR.ite_step _ (move tokEllipsis) (hR.moveStr tokEllipsis) _))
  | .compositeLit typ _ elts _, s => by
      rw [traverse_compositeLit_snd]
      dsimp only
      exact hR.comp (traverseOpt_rel R hR typ s)
        (hR.comp (hR.moveStr tokLBrace _)
          (hR.comp (hR.ite_step _ newline hR.newline _)
            (hR.comp (traverseList_rel_of_loop R hR elts _ (traverseLoop_rel R hR _ elts _))
              (hR.comp (hR.ite_step _ newline hR.newline _)
                (hR.comp (hR.moveStr tokRBrace _)
                  (hR.ite_step _ newline hR.newline _))))))
  | .keyValueExpr key _ value, s => by
      rw [traverse_keyValueExpr_snd]
      dsimp only
      exact hR.comp (traverse_rel R hR key s)
        (hR.comp (hR.moveStr tokColon _)
          (hR.comp (traverse_rel R hR value _)
            (hR.ite_step _ newline hR.newline _)))
  | .emptyStmt _ b, s => by
      rw [traverse_emptyStmt_snd]
      exact hR.ite_step _ (move tokSemicolon) (hR.moveStr tokSemicolon) s
  | .blockStmt _ stmts _, s => by
      rw [traverse_blockStmt_snd]
      dsimp only
      exact hR.comp (hR.comp (hR.moveStr tokLBrace s) (hR.newline _))
        (hR.comp (traverseList_rel_of_loop R hR stmts _ (traverseLoop_rel R hR _ stmts _))
          (hR.comp (hR.moveStr tokRBrace _) (hR.newline _)))
  | .field doc names typ, s => by
      rw [traverse_field_snd]
      dsimp only
      exact hR.comp (handleComment_rel R hR doc s)
        (hR.comp (traverseSeq_rel R hR names _) (traverseOpt_rel R hR typ _))
  | .fieldList op fields cl, s => by
      rw [traverse_fieldList_snd]
      dsimp only
      exact hR.comp
        (hR.ite_step _
          (fun s => if (moveN 1 s).inStruct = true then newline (moveN 1 s) else moveN 1 s)
          (fun s => hR.comp (hR.moveN 1 s) (hR.ite_step _ newline hR.newline _)) s)
        (hR.comp (traverseList_rel_of_loop R hR fields _ (traverseLoop_rel R hR _ fields _))
          (hR.ite_step _
            (fun s => if (moveN 1 s).inStruct = true then newline (newline (moveN 1 s))
              else moveN 1 s)
            (fun s => hR.comp (hR.moveN 1 s)
              (hR.ite_step _ (fun s => newline (newline s))
                (fun s => hR.comp (hR.newline s) (hR.newline _)) _)) _))
  | .structType _ fields, s => by
      rw [traverse_structType_snd]
      dsimp only
      exact hR.comp (hR.moveStr tokStruct s)
        (hR.comp (hR.setInStruct true _)
          (hR.comp (traverseOpt_rel R hR fields _) (hR.setInStruct false _)))
  | .funcType _ params results, s => by
      rw [traverse_funcType_snd]
      dsimp only
      exact hR.comp (hR.moveStr tokFunc s)
        (hR.comp (traverseOpt_rel R hR params _) (traverseOpt_rel R hR results _))
  | .funcDecl doc recv name typ body, s => by
      rw [traverse_funcDecl_snd]
      dsimp only
      exact hR.comp (handleComment_rel R hR doc s)
        (hR.comp (traverseOpt_rel R hR recv _)
          (hR.comp (traverse_rel R hR name _)
            (hR.comp (traverse_rel R hR typ _)
              (hR.comp (traverseOpt_rel R hR body _) (hR.newline _)))))
  | .valueSpec doc names typ values, s => by
      rw [traverse_valueSpec_snd]
      dsimp only
      exact hR.comp (traverseSeq_rel R hR names s)
        (hR.comp (traverseOpt_rel R hR typ _) (traverseSeq_rel R hR values _))
  | .genDecl doc _ tok lp specs rp, s => by
      rw [traverse_genDecl_snd]
      dsimp only
      exact hR.comp (handleComment_rel R hR doc s)
        (hR.comp (hR.moveStr tok _)
          (hR.comp
            (hR.ite_step _ (fun s => newline (move tokLParen s))
              (fun s => hR.comp (hR.moveStr tokLParen s) (hR.newline _)) _)
            (hR.comp (traverseList_rel_of_loop R hR specs _ (traverseLoop_rel R hR _ specs _))
              (hR.ite_step _ (fun s => newline (move tokRParen s))
                (fun s => hR.comp (hR.moveStr tokRParen s) (hR.newline _)) _))))
  | .file doc _ name decls _ _ _, s => by
      rw [traverse_file_snd]
      dsimp only
      exact hR.comp (handleComment_rel R hR doc s)
        (hR.comp (hR.comp (hR.moveStr tokPackage _) (hR.moveStr " " _))
          (hR.comp (traverse_rel R hR name _)
            (hR.comp (hR.newline _)
              (traverseList_rel_of_loop R hR decls _ (traverseLoop_rel R hR _ decls _)))))
  termination_by structural n => n

theorem traverseOpt_rel (R : PosState → PosState → Prop) (hR : StepsOk R) :
    ∀ (o : Option Node) (s : PosState), R s (traverseOpt o s).2
  | none, s => hR.refl s
  | some n, s => by
      rw [traverseOpt_some_snd]; exact traverse_rel R hR n s
  termination_by structural o => o

theorem traverseSeq_rel (R : PosState → PosState → Prop) (hR : StepsOk R) :
    ∀ (ns : List Node) (s : PosState), R s (traverseSeq ns s).2
  | [], s => hR.refl s
  | n :: rest, s => by
      rw [traverseSeq_cons_snd]
      exact hR.comp (traverse_rel R hR n s) (traverseSeq_rel R hR rest _)
  termination_by structural ns => ns

theorem traverseLoop_rel (R : PosState → PosState → Prop) (hR : StepsOk R) :
    ∀ (i : Nat) (ns : List Node) (s : PosState), R s (traverseLoop i ns s).2
  | _, [], s => hR.refl s
  | i, n :: rest, s => by
      rw [traverseLoop_cons_snd]
      exact hR.comp (traverse_rel R hR n s)
        (hR.comp (hR.bumpIndex i _) (traverseLoop_rel R hR i rest _))
  termination_by structural _ ns => ns

end

theorem traverseList_rel (R : PosState → PosState → Prop) (hR : StepsOk R)
    (ns : List Node) (s : PosState) : R s (traverseList ns s).2 :=
  traverseList_rel_of_loop R hR ns s (traverseLoop_rel R hR _ ns _)

theorem rewritePositions_rel (R : PosState → PosState → Prop) (hR : StepsOk R)
    (f : Node) : R initState (rewritePositions f).2 := by
  have h := traverse_rel R hR (setFileStart 1 f) initState
  simp only [rewritePositions, positionTokens]
  rcases hq : traverse (setFileStart 1 f) initState with ⟨r, s⟩
  rw [hq] at h
  exact h

/-! ### Instances of the step-closure principle -/
theorem stepsOk_mono : StepsOk (fun a b => a.p ≤ b.p) where
  refl _ := le_rfl
  trans _ _ _ h1 h2 := le_trans h1 h2
  moveStr str s := by simp
  moveN n s := by simp
  newline s := by simp
  pushFrame k s := le_rfl
  bumpIndex i s := le_rfl
  popFrame i s := le_rfl
  setInStruct b s := le_rfl
  pushComment g s := le_rfl

/-- The position counter never decreases. -/
theorem traverse_p_mono (n : Node) (s : PosState) : s.p ≤ (traverse n s).2.p :=
  traverse_rel _ stepsOk_mono n s

theorem traverseOpt_p_mono (o : Option Node) (s : PosState) : s.p ≤ (traverseOpt o s).2.p :=
  traverseOpt_rel _ stepsOk_mono o s

theorem traverseSeq_p_mono (ns : List Node) (s : PosState) : s.p ≤ (traverseSeq ns s).2.p :=
  traverseSeq_rel _ stepsOk_mono ns s

theorem traverseLoop_p_mono (i : Nat) (ns : List Node) (s : PosState) :
    s.p ≤ (traverseLoop i ns s).2.p :=
  traverseLoop_rel _ stepsOk_mono i ns s

theorem traverseList_p_mono (ns : List Node) (s : PosState) : s.p ≤ (traverseList ns s).2.p :=
  traverseList_rel _ stepsOk_mono ns s

theorem handleComment_p_mono (g : Option CommentGroup) (s : PosState) :
    s.p ≤ (handleComment g s).2.p :=
  handleComment_rel _ stepsOk_mono g s

theorem positionComments_p_mono (cs : List Comment) (s : PosState) :
    s.p ≤ (positionComments cs s).2.p :=
  positionComments_rel _ stepsOk_mono cs s

theorem stepsOk_linesExt : StepsOk (fun a b => ∃ t, b.lines = a.lines ++ t) where
  refl s := ⟨[], by simp⟩
  trans a b c := by
    rintro ⟨t1, h1⟩ ⟨t2, h2⟩
    exact ⟨t1 ++ t2, by simp [h2, h1]⟩
  moveStr str s := ⟨[], by simp⟩
  moveN n s := ⟨[], by simp⟩
  newline s := by
    rcases newline_lines s with h | h
    · exact ⟨[], by simp [h]⟩
    · exact ⟨[s.p], h⟩
  pushFrame k s := ⟨[], by simp⟩
  bumpIndex i s := ⟨[], by simp⟩
  popFrame i s := ⟨[], by simp⟩
  setInStruct b s := ⟨[], by simp⟩
  pushComment g s := ⟨[], by simp⟩

/-- The line table only ever grows at the end. -/
theorem traverse_lines_ext (n : Node) (s : PosState) :
    ∃ t, (traverse n s).2.lines = s.lines ++ t :=
  traverse_rel _ stepsOk_linesExt n s

theorem traverseList_lines_ext (ns : List Node) (s : PosState) :
    ∃ t, (traverseList ns s).2.lines = s.lines ++ t :=
  traverseList_rel _ stepsOk_linesExt ns s

theorem traverseOpt_lines_ext (o : Option Node) (s : PosState) :
    ∃ t, (traverseOpt o s).2.lines = s.lines ++ t :=
  traverseOpt_rel _ stepsOk_linesExt o s

theorem positionComments_lines_ext (cs : List Comment) (s : PosState) :
    ∃ t, (positionComments cs s).2.lines = s.lines ++ t :=
  positionComments_rel _ stepsOk_linesExt cs s

theorem stepsOk_commentsExt : StepsOk (fun a b => ∃ t, b.comments = a.comments ++ t) where
  refl s := ⟨[], by simp⟩
  trans a b c := by
    rintro ⟨t1, h1⟩ ⟨t2, h2⟩
    exact ⟨t1 ++ t2, by simp [h2, h1]⟩
  moveStr str s := ⟨[], by simp⟩
  moveN n s := ⟨[], by simp⟩
  newline s := ⟨[], by simp⟩
  pushFrame k s := ⟨[], by simp⟩
  bumpIndex i s := ⟨[], by simp⟩
  popFrame i s := ⟨[], by simp⟩
  setInStruct b s := ⟨[], by simp⟩
  pushComment g s := ⟨[g], rfl⟩

/-- The comment list only ever grows at the end (traversal order). -/
theorem traverse_comments_ext (n : Node) (s : PosState) :
    ∃ t, (traverse n s).2.comments = s.comments ++ t :=
  traverse_rel _ stepsOk_commentsExt n s

theorem initState_StateOk : StateOk initState := by
  refine ⟨rfl, by simp [initState], ?_⟩
  intro o ho
  simp only [initState, List.mem_singleton] at ho
  simp [ho, initState]

theorem StateOk.lines_ne_nil {s : PosState} (h : StateOk s) : s.lines ≠ [] := by
  intro hnil
  have := h.1
  rw [hnil] at this
  simp at this

theorem StateOk.zero_mem {s : PosState} (h : StateOk s) : 0 ∈ s.lines :=
  List.mem_of_mem_head? (by rw [h.1]; rfl)

theorem StateOk.p_pos {s : PosState} (h : StateOk s) : 0 < s.p :=
  h.2.2 0 h.zero_mem

theorem StateOk.getLastD_lt {s : PosState} (h : StateOk s) : s.lines.getLastD 0 < s.p := by
  rcases List.mem_cons.mp (List.getLastD_mem_cons s.lines 0) with h0 | hmem
  · rw [h0]; exact h.p_pos
  · exact h.2.2 _ hmem

/-- When the counter is inside the file, `newline` really records the
current counter as a new line start. -/
theorem newline_records {s : PosState} (h : StateOk s) (hsz : s.p < fileSize) :
    (newline s).lines = s.lines ++ [s.p] := by
  have hg := h.getLastD_lt
  simp only [newline, moveN_lines, addLine]
  rw [if_pos ⟨Or.inr hg, hsz⟩]

theorem StateOk.newline {s : PosState} (h : StateOk s) : StateOk (Astpos.newline s) := by
  rcases newline_lines s with hl | hl
  · refine ⟨by simp [hl, h.1], by simpa [hl] using h.2.1, ?_⟩
    intro o ho
    rw [hl] at ho
    exact lt_trans (h.2.2 o ho) (by simp)
  · refine ⟨?_, ?_, ?_⟩
    · rw [hl, List.head?_append_of_ne_nil _ h.lines_ne_nil]
      exact h.1
    · rw [hl, List.chain'_append]
      refine ⟨h.2.1, by simp, ?_⟩
      intro x hx y hy
      simp only [List.head?_cons, Option.mem_def, Option.some.injEq] at hy
      subst hy
      exact h.2.2 x (List.mem_of_mem_getLast? hx)
    · intro o ho
      rw [hl] at ho
      rcases List.mem_append.mp ho with h' | h'
      · exact lt_trans (h.2.2 o h') (by simp)
      · simp only [List.mem_singleton] at h'
        simp [h']

theorem stepsOk_StateOk : StepsOk (fun a b => StateOk a → StateOk b) where
  refl _ := id
  trans _ _ _ h1 h2 := fun h => h2 (h1 h)
  moveStr str s := fun h =>
    ⟨by simpa using h.1, by simpa using h.2.1, fun o ho => by
      simp only [moveStr_lines] at ho
      simp only [moveStr_p]
      exact lt_of_lt_of_le (h.2.2 o ho) (Nat.le_add_right _ _)⟩
  moveN n s := fun h =>
    ⟨by simpa using h.1, by simpa using h.2.1, fun o ho => by
      simp only [moveN_lines] at ho
      simp only [moveN_p]
      exact lt_of_lt_of_le (h.2.2 o ho) (Nat.le_add_right _ _)⟩
  newline s := fun h => h.newline
  pushFrame k s := id
  bumpIndex i s := id
  popFrame i s := id
  setInStruct b s := id
  pushComment g s := id

/-- The state invariant is preserved by the whole traversal. -/
theorem traverse_StateOk {n : Node} {s : PosState} (h : StateOk s) :
    StateOk (traverse n s).2 :=
  traverse_rel _ stepsOk_StateOk n s h

theorem traverseOpt_StateOk {o : Option Node} {s : PosState} (h : StateOk s) :
    StateOk (traverseOpt o s).2 :=
  traverseOpt_rel _ stepsOk_StateOk o s h

theorem traverseList_StateOk {ns : List Node} {s : PosState} (h : StateOk s) :
    StateOk (traverseList ns s).2 :=
  traverseList_rel _ stepsOk_StateOk ns s h

theorem handleComment_StateOk {g : Option CommentGroup} {s : PosState} (h : StateOk s) :
    StateOk (handleComment g s).2 :=
  handleComment_rel _ stepsOk_StateOk g s h

theorem positionComments_StateOk {cs : List Comment} {s : PosState} (h : StateOk s) :
    StateOk (positionComments cs s).2 :=
  positionComments_rel _ stepsOk_StateOk cs s h

theorem rewritePositions_StateOk (f : Node) : StateOk (rewritePositions f).2 :=
  rewritePositions_rel _ stepsOk_StateOk f initState_StateOk

/-- Entries added to the line table are never below the counter at the
time the sub-traversal started. -/
theorem stepsOk_linesLB : StepsOk (fun a b =>
    a.p ≤ b.p ∧ ∀ o ∈ b.lines, o ∈ a.lines ∨ a.p ≤ o) where
  refl s := ⟨le_rfl, fun o ho => Or.inl ho⟩
  trans a b c := by
    rintro ⟨hp1, h1⟩ ⟨hp2, h2⟩
    refine ⟨le_trans hp1 hp2, fun o ho => ?_⟩
    rcases h2 o ho with h' | h'
    · exact h1 o h'
    · exact Or.inr (le_trans hp1 h')
  moveStr str s := ⟨by simp, fun o ho => Or.inl (by simpa using ho)⟩
  moveN n s := ⟨by simp, fun o ho => Or.inl (by simpa using ho)⟩
  newline s := by
    refine ⟨by simp, fun o ho => ?_⟩
    rcases newline_lines s with hl | hl <;> rw [hl] at ho
    · exact Or.inl ho
    · rcases List.mem_append.mp ho with h' | h'
      · exact Or.inl h'
      · simp only [List.mem_singleton] at h'
        exact Or.inr (le_of_eq h'.symm)
  pushFrame k s := ⟨le_rfl, fun o ho => Or.inl ho⟩
  bumpIndex i s := ⟨le_rfl, fun o ho => Or.inl ho⟩
  popFrame i s := ⟨le_rfl, fun o ho => Or.inl ho⟩
  setInStruct b s := ⟨le_rfl, fun o ho => Or.inl ho⟩
  pushComment g s := ⟨le_rfl, fun o ho => Or.inl ho⟩

theorem traverse_lines_lb (n : Node) (s : PosState) :
    ∀ o ∈ (traverse n s).2.lines, o ∈ s.lines ∨ s.p ≤ o :=
  (traverse_rel _ stepsOk_linesLB n s).2

theorem traverseList_lines_lb (ns : List Node) (s : PosState) :
    ∀ o ∈ (traverseList ns s).2.lines, o ∈ s.lines ∨ s.p ≤ o :=
  (traverseList_rel _ stepsOk_linesLB ns s).2

theorem take_set_self (l : List Nat) (i : Nat) (a : Nat) :
    (l.set i a).take i = l.take i :=
  List.ext_getElem? fun j => by
    rw [List.getElem?_take, List.getElem?_take]
    split
    · next h' => rw [List.getElem?_set_ne (by omega)]
    · rfl

theorem bumpL_length (i k : Nat) (l : List Nat) : (bumpL i k l).length = l.length := by
  induction k generalizing l with
  | zero => rfl
  | succ k ih => simp [bumpL, ih]

theorem bumpL_take (i k : Nat) (l : List Nat) : (bumpL i k l).take i = l.take i := by
  induction k generalizing l with
  | zero => rfl
  | succ k ih => rw [bumpL, ih, take_set_self]

theorem Bal.push {s : PosState} (h : Bal s) (k : Nat) : Bal (pushFrame k s) := by
  unfold Bal at h ⊢
  simp only [pushFrame_sizeStack, pushFrame_indexStack, List.length_append,
    List.length_singleton]
  omega

theorem Bal.of_eqs {s t : PosState} (h : Bal s) (e1 : t.listSizeStack = s.listSizeStack)
    (e2 : t.listIndexStack = s.listIndexStack) : Bal t := by
  simp only [Bal, e1, e2]; exact h

theorem Bal.of_lengths {s t : PosState} (h : Bal s)
    (e1 : t.listSizeStack.length = s.listSizeStack.length)
    (e2 : t.listIndexStack.length = s.listIndexStack.length) : Bal t := by
  simp only [Bal, e1, e2]; exact h

theorem positionComments_stacks (cs : List Comment) (s : PosState) :
    (positionComments cs s).2.listSizeStack = s.listSizeStack ∧
      (positionComments cs s).2.listIndexStack = s.listIndexStack := by
  induction cs generalizing s with
  | nil => exact ⟨rfl, rfl⟩
  | cons c rest ih =>
      rw [positionComments_cons_snd]
      simpa using ih (newline (moveStr c.text s))

theorem handleComment_stacks (g : Option CommentGroup) (s : PosState) :
    (handleComment g s).2.listSizeStack = s.listSizeStack ∧
      (handleComment g s).2.listIndexStack = s.listIndexStack := by
  cases g with
  | none => exact ⟨rfl, rfl⟩
  | some g =>
      rw [handleComment_some_snd]
      dsimp only
      rcases positionComments_stacks g.list (if lineStart s (fileLine s s.p) ≠ s.p
        then newline s else s) with ⟨h1, h2⟩
      constructor
      · rw [h1]; split <;> simp
      · rw [h2]; split <;> simp

/-- `traverseList` pops exactly the frame it pushed: given the loop's
effect on the stacks, both stacks are restored to their entry value. -/
theorem traverseList_stacks_of_loop (ns : List Node) (s : PosState) (hbal : Bal s)
    (h : (traverseLoop s.listSizeStack.length ns (pushFrame ns.length s)).2.listSizeStack =
        (pushFrame ns.length s).listSizeStack ∧
      (traverseLoop s.listSizeStack.length ns (pushFrame ns.length s)).2.listIndexStack =
        bumpL s.listSizeStack.length ns.length (pushFrame ns.length s).listIndexStack) :
    (traverseList ns s).2.listSizeStack = s.listSizeStack ∧
      (traverseList ns s).2.listIndexStack = s.listIndexStack := by
  rw [traverseList_snd]
  constructor
  · rw [popFrame_sizeStack, h.1, pushFrame_sizeStack, List.take_left]
  · rw [popFrame_indexStack, h.2, pushFrame_indexStack, bumpL_take,
      List.take_left' (by simpa using hbal.symm)]

mutual

theorem traverse_stacks : ∀ (n : Node) (s : PosState), Bal s →
    (traverse n s).2.listSizeStack = s.listSizeStack ∧
      (traverse n s).2.listIndexStack = s.listIndexStack
  | .ident _ name, s, _ => by rw [traverse_ident_snd]; exact ⟨rfl, rfl⟩
  | .basicLit _ v, s, _ => by rw [traverse_basicLit_snd]; exact ⟨rfl, rfl⟩
  | .callExpr func _ args el _, s, h => by
      rw [traverse_callExpr_snd]
      dsimp only
      obtain ⟨a1, a2⟩ := traverse_stacks func s h
      have hb1 : Bal (traverse func s).2 := h.of_eqs a1 a2
      obtain ⟨b1, b2⟩ := traverseList_stacks_of_loop args _ hb1
        (traverseLoop_stacks _ args _ (hb1.push _))
      constructor
      · split <;> simp [b1, a1]
      · split <;> simp [b2, a2]
  | .compositeLit typ _ elts _, s, h => by
      rw [traverse_compositeLit_snd]
      dsimp only
      obtain ⟨a1, a2⟩ := traverseOpt_stacks typ s h
      have hb1 : Bal (traverseOpt typ s).2 := h.of_eqs a1 a2
      have hb2 : Bal (if (hasNestedComposite elts
            || (hasNestedKeyValue elts && !(decide (elts.length = 1)))
            || decide (4 ≤ elts.length)) = true
          then newline (move tokLBrace (traverseOpt typ s).2)
          else move tokLBrace (traverseOpt typ s).2) := by
        split <;> exact hb1.of_eqs (by simp [a1]) (by simp [a2])
      obtain ⟨b1, b2⟩ := traverseList_stacks_of_loop elts _ hb2
        (traverseLoop_stacks _ elts _ (hb2.push _))
      constructor
      · split <;> simp_all <;> split <;> simp_all
      · split <;> simp_all <;> split <;> simp_all
  | .keyValueExpr key _ value, s, h => by
      rw [traverse_keyValueExpr_snd]
      dsimp only
      obtain ⟨a1, a2⟩ := traverse_stacks key s h
      have hb1 : Bal (traverse key s).2 := h.of_eqs a1 a2
      obtain ⟨b1, b2⟩ := traverse_stacks value (move tokColon (traverse key s).2)
        (hb1.of_eqs (by simp) (by simp))
      constructor
      · split <;> simp [b1, a1]
      · split <;> simp [b2, a2]
  | .emptyStmt _ b, s, _ => by
      rw [traverse_emptyStmt_snd]
      constructor
      · split <;> rfl
      · split <;> rfl
  | .blockStmt _ stmts _, s, h => by
      rw [traverse_blockStmt_snd]
      dsimp only
      have hb1 : Bal (newline (move tokLBrace s)) := h.of_eqs (by simp) (by simp)
      obtain ⟨b1, b2⟩ := traverseList_stacks_of_loop stmts _ hb1
        (traverseLoop_stacks _ stmts _ (hb1.push _))
      exact ⟨by simp [b1], by simp [b2]⟩
  | .field doc names typ, s, h => by
      rw [traverse_field_snd]
      dsimp only
      obtain ⟨a1, a2⟩ := handleComment_stacks doc s
      have hb1 : Bal (handleComment doc s).2 := h.of_eqs a1 a2
      obtain ⟨b1, b2⟩ := traverseSeq_stacks names _ hb1
      have hb2 : Bal (traverseSeq names (handleComment doc s).2).2 := hb1.of_eqs b1 b2
      obtain ⟨c1, c2⟩ := traverseOpt_stacks typ _ hb2
      exact ⟨by rw [c1, b1, a1], by rw [c2, b2, a2]⟩
  | .fieldList op fields cl, s, h => by
      rw [traverse_fieldList_snd]
      dsimp only
      set s1 := if op ≠ 0 then
          (if (moveN 1 s).inStruct = true then newline (moveN 1 s) else moveN 1 s)
          else s with hs1
      have e1 : s1.listSizeStack = s.listSizeStack := by
        rw [hs1]; split
        · split <;> simp
        · rfl
      have e2 : s1.listIndexStack = s.listIndexStack := by
        rw [hs1]; split
        · split <;> simp
        · rfl
      have hb1 : Bal s1 := h.of_eqs e1 e2
      obtain ⟨b1, b2⟩ := traverseList_stacks_of_loop fields s1 hb1
        (traverseLoop_stacks _ fields _ (hb1.push _))
      rw [e1] at b1
      rw [e2] at b2
      constructor
      · split
        · split <;> simp [b1]
        · exact b1
      · split
        · split <;> simp [b2]
        · exact b2
  | .structType _ fields, s, h => by
      rw [traverse_structType_snd]
      obtain ⟨a1, a2⟩ := traverseOpt_stacks fields
        { move tokStruct s with inStruct := true } (h.of_eqs (by simp) (by simp))
      constructor
      · simpa using a1
      · simpa using a2
  | .funcType _ params results, s, h => by
      rw [traverse_funcType_snd]
      dsimp only
      obtain ⟨a1, a2⟩ := traverseOpt_stacks params (move tokFunc s)
        (h.of_eqs (by simp) (by simp))
      obtain ⟨b1, b2⟩ := traverseOpt_stacks results _
        ((h.of_eqs (by simp) (by simp) : Bal (move tokFunc s)).of_eqs a1 a2)
      exact ⟨by rw [b1, a1]; simp, by rw [b2, a2]; simp⟩
  | .funcDecl doc recv name typ body, s, h => by
      rw [traverse_funcDecl_snd]
      dsimp only
      obtain ⟨a1, a2⟩ := handleComment_stacks doc s
      have hb1 : Bal (handleComment doc s).2 := h.of_eqs a1 a2
      obtain ⟨b1, b2⟩ := traverseOpt_stacks recv _ hb1
      have hb2 : Bal (traverseOpt recv (handleComment doc s).2).2 := hb1.of_eqs b1 b2
      obtain ⟨c1, c2⟩ := traverse_stacks name _ hb2
      have hb3 : Bal (traverse name (traverseOpt recv (handleComment doc s).2).2).2 :=
        hb2.of_eqs c1 c2
      obtain ⟨d1, d2⟩ := traverse_stacks typ _ hb3
      have hb4 : Bal _ := hb3.of_eqs d1 d2
      obtain ⟨e1, e2⟩ := traverseOpt_stacks body _ hb4
      exact ⟨by simp [e1, d1, c1, b1, a1], by simp [e2, d2, c2, b2, a2]⟩
  | .valueSpec doc names typ values, s, h => by
      rw [traverse_valueSpec_snd]
      dsimp only
      obtain ⟨a1, a2⟩ := traverseSeq_stacks names s h
      have hb1 : Bal (traverseSeq names s).2 := h.of_eqs a1 a2
      obtain ⟨b1, b2⟩ := traverseOpt_stacks typ _ hb1
      have hb2 : Bal (traverseOpt typ (traverseSeq names s).2).2 := hb1.of_eqs b1 b2
      obtain ⟨c1, c2⟩ := traverseSeq_stacks values _ hb2
      exact ⟨by rw [c1, b1, a1], by rw [c2, b2, a2]⟩
  | .genDecl doc _ tok lp specs rp, s, h => by
      rw [traverse_genDecl_snd]
      dsimp only
      obtain ⟨a1, a2⟩ := handleComment_stacks doc s
      set s1 := if lp ≠ 0 then newline (move tokLParen (move tok (handleComment doc s).2))
          else move tok (handleComment doc s).2 with hs1
      have e1 : s1.listSizeStack = s.listSizeStack := by
        rw [hs1]; split <;> simp [a1]
      have e2 : s1.listIndexStack = s.listIndexStack := by
        rw [hs1]; split <;> simp [a2]
      have hb1 : Bal s1 := h.of_eqs e1 e2
      obtain ⟨b1, b2⟩ := traverseList_stacks_of_loop specs s1 hb1
        (traverseLoop_stacks _ specs _ (hb1.push _))
      rw [e1] at b1
      rw [e2] at b2
      constructor
      · split <;> simp [b1]
      · split <;> simp [b2]
  | .file doc _ name decls _ _ _, s, h => by
      rw [traverse_file_snd]
      dsimp only
      obtain ⟨a1, a2⟩ := handleComment_stacks doc s
      have hb1 : Bal (moveStr " " (move tokPackage (handleComment doc s).2)) :=
        (h.of_eqs a1 a2).of_eqs (by simp) (by simp)
      obtain ⟨b1, b2⟩ := traverse_stacks name _ hb1
      have hb2 : Bal (newline (traverse name
          (moveStr " " (move tokPackage (handleComment doc s).2))).2) :=
        (hb1.of_eqs b1 b2).of_eqs (by simp) (by simp)
      obtain ⟨c1, c2⟩ := traverseList_stacks_of_loop decls _ hb2
        (traverseLoop_stacks _ decls _ (hb2.push _))
      exact ⟨by simp [c1, b1, a1], by simp [c2, b2, a2]⟩
  termination_by structural n => n

theorem traverseOpt_stacks : ∀ (o : Option Node) (s : PosState), Bal s →
    (traverseOpt o s).2.listSizeStack = s.listSizeStack ∧
      (traverseOpt o s).2.listIndexStack = s.listIndexStack
  | none, _, _ => ⟨rfl, rfl⟩
  | some n, s, h => by rw [traverseOpt_some_snd]; exact traverse_stacks n s h
  termination_by structural o => o

theorem traverseSeq_stacks : ∀ (ns : List Node) (s : PosState), Bal s →
    (traverseSeq ns s).2.listSizeStack = s.listSizeStack ∧
      (traverseSeq ns s).2.listIndexStack = s.listIndexStack
  | [], _, _ => ⟨rfl, rfl⟩
  | n :: rest, s, h => by
      rw [traverseSeq_cons_snd]
      obtain ⟨a1, a2⟩ := traverse_stacks n s h
      obtain ⟨b1, b2⟩ := traverseSeq_stacks rest (traverse n s).2 (h.of_eqs a1 a2)
      exact ⟨by rw [b1, a1], by rw [b2, a2]⟩
  termination_by structural ns => ns

theorem traverseLoop_stacks : ∀ (i : Nat) (ns : List Node) (s : PosState), Bal s →
    (traverseLoop i ns s).2.listSizeStack = s.listSizeStack ∧
      (traverseLoop i ns s).2.listIndexStack = bumpL i ns.length s.listIndexStack
  | _, [], _, _ => ⟨rfl, rfl⟩
  | i, n :: rest, s, h => by
      rw [traverseLoop_cons_snd]
      obtain ⟨a1, a2⟩ := traverse_stacks n s h
      have hb1 : Bal (bumpIndex i (traverse n s).2) :=
        (h.of_eqs a1 a2).of_lengths (by simp) (by simp [List.length_set])
      obtain ⟨b1, b2⟩ := traverseLoop_stacks i rest _ hb1
      refine ⟨by simp [b1, a1], ?_⟩
      rw [b2]
      simp only [bumpIndex_indexStack, a2, List.length_cons, bumpL]
  termination_by structural _ ns => ns

end

theorem traverseList_stacks (ns : List Node) (s : PosState) (h : Bal s) :
    (traverseList ns s).2.listSizeStack = s.listSizeStack ∧
      (traverseList ns s).2.listIndexStack = s.listIndexStack :=
  traverseList_stacks_of_loop ns s h (traverseLoop_stacks _ ns _ (h.push _))

@[simp] theorem tokLBrace_length : tokLBrace.length = 1 := rfl

@[simp] theorem tokRBrace_length : tokRBrace.length = 1 := rfl

@[simp] theorem tokLParen_length : tokLParen.length = 1 := rfl

@[simp] theorem tokRParen_length : tokRParen.length = 1 := rfl

@[simp] theorem tokColon_length : tokColon.length = 1 := rfl

@[simp] theorem tokSemicolon_length : tokSemicolon.length = 1 := rfl

@[simp] theorem tokEllipsis_length : tokEllipsis.length = 3 := rfl

@[simp] theorem tokStruct_length : tokStruct.length = 6 := rfl

@[simp] theorem tokFunc_length : tokFunc.length = 4 := rfl

@[simp] theorem tokPackage_length : tokPackage.length = 7 := rfl

theorem mem_newline_lines {o : Nat} {t : PosState} (h : o ∈ (newline t).lines) :
    o ∈ t.lines ∨ o = t.p := by
  rcases newline_lines t with hl | hl <;> rw [hl] at h
  · exact Or.inl h
  · rcases List.mem_append.mp h with h' | h'
    · exact Or.inl h'
    · simp only [List.mem_singleton] at h'
      exact Or.inr h'

theorem traverseList_lines_via_loop (ns : List Node) (s : PosState)
    (H : ∀ o ∈ (traverseLoop s.listSizeStack.length ns (pushFrame ns.length s)).2.lines,
      o ∈ (pushFrame ns.length s).lines ∨ (pushFrame ns.length s).p < o) :
    ∀ o ∈ (traverseList ns s).2.lines, o ∈ s.lines ∨ s.p < o := by
  rw [traverseList_snd]
  intro o ho
  simpa using H o (by simpa using ho)

/- During the traversal of an expression every newline is preceded by at
least one counter advance, so all newly recorded line starts lie
strictly above the entry counter. -/
mutual

theorem traverse_lines_strict : ∀ (n : Node), wfExpr n = true → ∀ (s : PosState),
    ∀ o ∈ (traverse n s).2.lines, o ∈ s.lines ∨ s.p < o
  | .ident _ name, _, s => by
      rw [traverse_ident_snd]
      intro o ho
      exact Or.inl (by simpa using ho)
  | .basicLit _ v, _, s => by
      rw [traverse_basicLit_snd]
      intro o ho
      exact Or.inl (by simpa using ho)
  | .callExpr func _ args el _, hw, s => by
      rw [wfExpr] at hw
      rw [Bool.and_eq_true] at hw
      rw [traverse_callExpr_snd]
      dsimp only
      intro o ho
      have ho2 : o ∈ (traverseList args (traverse func s).2).2.lines := by
        revert ho; split <;> (intro ho; simpa using ho)
      rcases traverseList_lines_via_loop args (traverse func s).2
          (traverseLoop_lines_strict _ args hw.2 _) o ho2 with h' | h'
      · rcases traverse_lines_strict func hw.1 s o h' with h'' | h''
        · exact Or.inl h''
        · exact Or.inr h''
      · exact Or.inr (lt_of_le_of_lt (traverse_p_mono func s) h')
  | .compositeLit typ _ elts _, hw, s => by
      rw [wfExpr] at hw
      rw [Bool.and_eq_true] at hw
      rw [traverse_compositeLit_snd]
      dsimp only
      intro o ho
      have hp1 : s.p ≤ (traverseOpt typ s).2.p := traverseOpt_p_mono typ s
      set s1 := (traverseOpt typ s).2 with hs1
      set s2 := move tokLBrace s1 with hs2
      set s3 := if (hasNestedComposite elts
          || (hasNestedKeyValue elts && !(decide (elts.length = 1)))
          || decide (4 ≤ elts.length)) = true then newline s2 else s2 with hs3
      have hp3 : s.p < s3.p := by
        rw [hs3]; split <;> simp [hs2] <;> omega
      set s4 := (traverseList elts s3).2 with hs4
      have hp4 : s.p < s4.p := lt_of_lt_of_le hp3 (traverseList_p_mono elts s3)
      set s5 := if (hasNestedComposite elts
          || (hasNestedKeyValue elts && !(decide (elts.length = 1)))
          || decide (4 ≤ elts.length)) = true then newline s4 else s4 with hs5
      have hp5 : s.p < s5.p := by
        rw [hs5]; split
        · simpa using Nat.lt_succ_of_lt hp4
        · exact hp4
      have hmem5 : o ∈ (if (decide (4 ≤ elts.length)
          || decide (listSize (move tokRBrace s5) > 0)) = true
          then newline (move tokRBrace s5) else move tokRBrace s5).lines → o ∈ s5.lines ∨ s.p < o := by
        intro hm
        have : o ∈ (move tokRBrace s5).lines ∨ o = (move tokRBrace s5).p := by
          revert hm; split
          · intro hm; exact mem_newline_lines hm
          · intro hm; exact Or.inl hm
        rcases this with h' | h'
        · exact Or.inl (by simpa using h')
        · refine Or.inr ?_
          rw [h']
          simp only [move_p, tokLBrace_length, tokRBrace_length, tokColon_length]
          omega
      rcases hmem5 ho with h5 | h5
      · have h4 : o ∈ s4.lines ∨ s.p < o := by
          revert h5; rw [hs5]; split
          · intro h5
            rcases mem_newline_lines h5 with h' | h'
            · exact Or.inl h'
            · exact Or.inr (h' ▸ hp4)
          · exact fun h5 => Or.inl h5
        rcases h4 with h4 | h4
        · rcases traverseList_lines_via_loop elts s3
              (traverseLoop_lines_strict _ elts hw.2 _) o h4 with h' | h'
          · have h3 : o ∈ s2.lines ∨ s.p < o := by
              revert h'; rw [hs3]; split
              · intro h'
                rcases mem_newline_lines h' with h'' | h''
                · exact Or.inl h''
                · refine Or.inr ?_
                  rw [h'', hs2]
                  simp only [move_p, tokLBrace_length, tokRBrace_length, tokColon_length]
                  omega
              · exact fun h' => Or.inl h'
            rcases h3 with h3 | h3
            · rcases traverseOpt_lines_strict typ hw.1 s o (by simpa [hs2] using h3) with h'' | h''
              · exact Or.inl h''
              · exact Or.inr h''
            · exact Or.inr h3
          · exact Or.inr (lt_of_lt_of_le hp3 (le_of_lt h'))
        · exact Or.inr h4
      · exact Or.inr h5
  | .keyValueExpr key _ value, hw, s => by
      rw [wfExpr] at hw
      rw [Bool.and_eq_true] at hw
      rw [traverse_keyValueExpr_snd]
      dsimp only
      intro o ho
      set s1 := (traverse key s).2 with hs1
      set s2 := move tokColon s1 with hs2
      have hp1 : s.p ≤ s1.p := traverse_p_mono key s
      have hp3 : s.p < (traverse value s2).2.p := by
        refine lt_of_lt_of_le ?_ (traverse_p_mono value s2)
        rw [hs2]
        simp only [move_p, tokLBrace_length, tokRBrace_length, tokColon_length]
        omega
      have ho3 : o ∈ (traverse value s2).2.lines ∨ o = (traverse value s2).2.p := by
        revert ho; split
        · intro ho; exact mem_newline_lines ho
        · intro ho; exact Or.inl ho
      rcases ho3 with h' | h'
      · rcases traverse_lines_strict value hw.2 s2 o h' with h'' | h''
        · rcases traverse_lines_strict key hw.1 s o (by simpa [hs2] using h'') with h3 | h3
          · exact Or.inl h3
          · exact Or.inr h3
        · refine Or.inr (lt_of_le_of_lt ?_ h'')
          rw [hs2]
          simp only [move_p, tokLBrace_length, tokRBrace_length, tokColon_length]
          omega
      · exact Or.inr (h' ▸ hp3)
  | .emptyStmt _ _, hw, s => by simp [wfExpr] at hw
  | .blockStmt _ _ _, hw, s => by simp [wfExpr] at hw
  | .field _ _ _, hw, s => by simp [wfExpr] at hw
  | .fieldList _ _ _, hw, s => by simp [wfExpr] at hw
  | .structType _ _, hw, s => by simp [wfExpr] at hw
  | .funcType _ _ _, hw, s => by simp [wfExpr] at hw
  | .funcDecl _ _ _ _ _, hw, s => by simp [wfExpr] at hw
  | .valueSpec _ _ _ _, hw, s => by simp [wfExpr] at hw
  | .genDecl _ _ _ _ _ _, hw, s => by simp [wfExpr] at hw
  | .file _ _ _ _ _ _ _, hw, s => by simp [wfExpr] at hw
  termination_by structural n => n

theorem traverseOpt_lines_strict : ∀ (o : Option Node), wfExprOpt o = true →
    ∀ (s : PosState), ∀ x ∈ (traverseOpt o s).2.lines, x ∈ s.lines ∨ s.p < x
  | none, _, s => fun x hx => Or.inl hx
  | some n, hw, s => by
      rw [wfExprOpt] at hw
      rw [traverseOpt_some_snd]
      exact traverse_lines_strict n hw s
  termination_by structural o => o

theorem traverseLoop_lines_strict : ∀ (i : Nat) (ns : List Node), wfExprList ns = true →
    ∀ (s : PosState), ∀ o ∈ (traverseLoop i ns s).2.lines, o ∈ s.lines ∨ s.p < o
  | _, [], _, s => fun o ho => Or.inl ho
  | i, n :: rest, hw, s => by
      rw [wfExprList] at hw
      rw [Bool.and_eq_true] at hw
      rw [traverseLoop_cons_snd]
      intro o ho
      rcases traverseLoop_lines_strict i rest hw.2 (bumpIndex i (traverse n s).2) o ho with h' | h'
      · rcases traverse_lines_strict n hw.1 s o (by simpa using h') with h'' | h''
        · exact Or.inl h''
        · exact Or.inr h''
      · refine Or.inr (lt_of_le_of_lt ?_ h')
        simpa using traverse_p_mono n s
  termination_by structural _ ns => ns

end

theorem traverseList_lines_strict (ns : List Node) (hw : wfExprList ns = true) (s : PosState) :
    ∀ o ∈ (traverseList ns s).2.lines, o ∈ s.lines ∨ s.p < o :=
  traverseList_lines_via_loop ns s (traverseLoop_lines_strict _ ns hw _)

/-- If `LineStart(Line(p)) = p` holds (the source's alignment check)
then the counter really sits one past a recorded line-start offset. -/
theorem aligned_mem {s : PosState} (h : StateOk s)
    (ha : lineStart s (fileLine s s.p) = s.p) : IsLineStartPos s.lines s.p := by
  have hppos : 0 < s.p := h.p_pos
  have h0 : (0 : Nat) ∈ s.lines.filter (fun o => o ≤ s.p - 1) :=
    List.mem_filter.2 ⟨h.zero_mem, by simp⟩
  have hk1 : 1 ≤ lineIndex s.lines (s.p - 1) := by
    have := List.length_pos.2 (List.ne_nil_of_mem h0)
    simpa [lineIndex] using this
  have hkle : lineIndex s.lines (s.p - 1) ≤ s.lines.length := by
    simpa [lineIndex] using List.length_filter_le (fun o => o ≤ s.p - 1) s.lines
  set k := lineIndex s.lines (s.p - 1) with hk
  have hlt : k - 1 < s.lines.length := by omega
  have hgd : s.lines.getD (k - 1) 0 = s.p - 1 := by
    have : 1 + s.lines.getD (k - 1) 0 = s.p := by
      simpa [lineStart, fileLine, hk] using ha
    omega
  refine ⟨s.p - 1, ?_, by omega⟩
  have : s.lines.getD (k - 1) 0 = s.lines[k - 1] := List.getD_eq_getElem s.lines 0 hlt
  rw [← hgd, this]
  exact List.getElem_mem hlt

/-- What the comment loop does, in full: every comment line gets a
strictly increasing, line-start-aligned position and is followed by a
newline; the texts are kept. -/
theorem positionComments_spec : ∀ (cs : List Comment) (s : PosState), StateOk s →
    IsLineStartPos s.lines s.p → (positionComments cs s).2.p ≤ fileSize →
    (positionComments cs s).1.length = cs.length ∧
    (∀ c ∈ (positionComments cs s).1, IsLineStartPos (positionComments cs s).2.lines c.slash) ∧
    (∀ c ∈ (positionComments cs s).1, (c.slash + c.text.length) ∈ (positionComments cs s).2.lines) ∧
    (∀ c ∈ (positionComments cs s).1, s.p ≤ c.slash) ∧
    List.Chain' (fun a b => a.slash < b.slash) (positionComments cs s).1
  | [], s, _, _, _ => by
      refine ⟨rfl, ?_, ?_, ?_, ?_⟩ <;> simp [positionComments]
  | c :: rest, s, hok, hal, hsz => by
      have hok1 : StateOk (moveStr c.text s) := stepsOk_StateOk.moveStr c.text s hok
      have hrec : (newline (moveStr c.text s)).lines = s.lines ++ [s.p + c.text.length] := by
        have hlt : (moveStr c.text s).p < fileSize := by
          have h1 : (newline (moveStr c.text s)).p ≤ (positionComments rest
              (newline (moveStr c.text s))).2.p := positionComments_p_mono _ _
          have h2 : (positionComments (c :: rest) s).2.p =
              (positionComments rest (newline (moveStr c.text s))).2.p := by
            rw [positionComments_cons_snd]
          simp only [newline_p, moveStr_p] at h1
          simp only [moveStr_p]
          omega
        simpa using newline_records hok1 hlt
      have hok2 : StateOk (newline (moveStr c.text s)) := hok1.newline
      have hal2 : IsLineStartPos (newline (moveStr c.text s)).lines
          (newline (moveStr c.text s)).p := by
        refine ⟨s.p + c.text.length, ?_, by simp⟩
        rw [hrec]
        simp
      have hsz2 : (positionComments rest (newline (moveStr c.text s))).2.p ≤ fileSize := by
        have h2 : (positionComments (c :: rest) s).2.p =
            (positionComments rest (newline (moveStr c.text s))).2.p := by
          rw [positionComments_cons_snd]
        omega
      obtain ⟨ihlen, ihal, ihnl, ihlb, ihch⟩ :=
        positionComments_spec rest (newline (moveStr c.text s)) hok2 hal2 hsz2
      obtain ⟨text, hext⟩ := positionComments_lines_ext rest (newline (moveStr c.text s))
      have hcons : positionComments (c :: rest) s =
          (⟨s.p, c.text⟩ :: (positionComments rest (newline (moveStr c.text s))).1,
            (positionComments rest (newline (moveStr c.text s))).2) := by
        simp only [positionComments]
      rw [hcons]
      refine ⟨by simpa using ihlen, ?_, ?_, ?_, ?_⟩
      · intro x hx
        rcases List.mem_cons.mp hx with hx | hx
        · subst hx
          rcases hal with ⟨o, ho, hoe⟩
          exact ⟨o, by rw [hext, hrec]; simp [ho], hoe⟩
        · exact ihal x hx
      · intro x hx
        rcases List.mem_cons.mp hx with hx | hx
        · subst hx
          rw [hext, hrec]
          simp
        · exact ihnl x hx
      · intro x hx
        rcases List.mem_cons.mp hx with hx | hx
        · subst hx
          exact le_rfl
        · refine le_trans ?_ (ihlb x hx)
          simp only [newline_p, moveStr_p]
          omega
      · rw [List.chain'_cons']
        refine ⟨?_, ihch⟩
        intro b hb
        have hbmem : b ∈ (positionComments rest (newline (moveStr c.text s))).1 :=
          List.mem_of_mem_head? hb
        have := ihlb b hbmem
        simp only [newline_p, moveStr_p] at this
        dsimp only
        omega

theorem traverse_scalar_lines {n : Node} (h : flatScalar n = true) (s : PosState) :
    (traverse n s).2.lines = s.lines := by
  cases n <;> simp [flatScalar] at h <;>
    first
      | (rw [traverse_ident_snd]; simp)
      | (rw [traverse_basicLit_snd]; simp)

theorem traverseLoop_scalar_lines : ∀ (ns : List Node), ns.all flatScalar = true →
    ∀ (i : Nat) (s : PosState), (traverseLoop i ns s).2.lines = s.lines
  | [], _, _, _ => rfl
  | n :: rest, h, i, s => by
      rw [List.all_cons, Bool.and_eq_true] at h
      rw [traverseLoop_cons_snd]
      rw [traverseLoop_scalar_lines rest h.2]
      simp [traverse_scalar_lines h.1]

theorem traverseList_scalar_lines (ns : List Node) (h : ns.all flatScalar = true)
    (s : PosState) : (traverseList ns s).2.lines = s.lines := by
  rw [traverseList_snd]
  simp [traverseLoop_scalar_lines ns h]

theorem traverseSeq_scalar_lines : ∀ (ns : List Node), ns.all flatScalar = true →
    ∀ (s : PosState), (traverseSeq ns s).2.lines = s.lines
  | [], _, _ => rfl
  | n :: rest, h, s => by
      rw [List.all_cons, Bool.and_eq_true] at h
      rw [traverseSeq_cons_snd, traverseSeq_scalar_lines rest h.2,
        traverse_scalar_lines h.1]

theorem traverse_simpleSpec_lines {n : Node} (h : simpleSpec n = true) (s : PosState) :
    (traverse n s).2.lines = s.lines := by
  cases n <;> simp [simpleSpec] at h
  case valueSpec doc names typ values =>
    obtain ⟨⟨h1, h2⟩, h3⟩ := h
    rw [traverse_valueSpec_snd]
    dsimp only
    rw [traverseSeq_scalar_lines values (by simpa using h3),
      show (traverseOpt typ (traverseSeq names s).2).2.lines = (traverseSeq names s).2.lines by
        cases typ with
        | none => rfl
        | some t =>
            rw [traverseOpt_some_snd]
            exact traverse_scalar_lines (by simpa using h2) _,
      traverseSeq_scalar_lines names (by simpa using h1)]

theorem traverseLoop_simpleSpec_lines : ∀ (ns : List Node), ns.all simpleSpec = true →
    ∀ (i : Nat) (s : PosState), (traverseLoop i ns s).2.lines = s.lines
  | [], _, _, _ => rfl
  | n :: rest, h, i, s => by
      rw [List.all_cons, Bool.and_eq_true] at h
      rw [traverseLoop_cons_snd, traverseLoop_simpleSpec_lines rest h.2]
      simp [traverse_simpleSpec_lines h.1]

theorem traverseList_simpleSpec_lines (ns : List Node) (h : ns.all simpleSpec = true)
    (s : PosState) : (traverseList ns s).2.lines = s.lines := by
  rw [traverseList_snd]
  simp [traverseLoop_simpleSpec_lines ns h]

/-! ### Full-pair forms of the traversal equations -/
theorem traverse_ident_eq (q : Nat) (name : String) (s : PosState) :
    traverse (.ident q name) s = (.ident s.p name, moveStr name s) := rfl

theorem traverse_basicLit_eq (q : Nat) (v : String) (s : PosState) :
    traverse (.basicLit q v) s = (.basicLit s.p v, moveStr v s) := rfl

theorem traverse_callExpr_eq (func : Node) (lp : Nat) (args : List Node) (el rp : Nat)
    (s : PosState) :
    traverse (.callExpr func lp args el rp) s =
      (let (func', s) := traverse func s
       let lparen' := s.p
       let (args', s) := traverseList args s
       let (ellipsis', s) := if el ≠ 0 then (s.p, move tokEllipsis s) else (el, s)
       let rparen' := s.p
       (.callExpr func' lparen' args' ellipsis' rparen', s)) := rfl

theorem traverse_compositeLit_eq (typ : Option Node) (lb : Nat) (elts : List Node) (rb : Nat)
    (s : PosState) :
    traverse (.compositeLit typ lb elts rb) s =
      (let doNewlines := hasNestedComposite elts
        || (hasNestedKeyValue elts && !(decide (elts.length = 1)))
        || decide (4 ≤ elts.length)
       let (typ', s) := traverseOpt typ s
       let lbrace' := s.p
       let s := move tokLBrace s
       let s := if doNewlines then newline s else s
       let (elts', s) := traverseList elts s
       let s := if doNewlines then newline s else s
       let rbrace' := s.p
       let s := move tokRBrace s
       let s := if decide (4 ≤ elts.length) || decide (listSize s > 0) then newline s else s
       (.compositeLit typ' lbrace' elts' rbrace', s)) := rfl

theorem traverse_keyValueExpr_eq (key : Node) (c : Nat) (value : Node) (s : PosState) :
    traverse (.keyValueExpr key c value) s =
      (let (key', s) := traverse key s
       let colon' := s.p
       let s := move tokColon s
       let (value', s) := traverse value s
       let s := if decide (listSize s > 1) && !isCompositeLit value' then newline s else s
       (.keyValueExpr key' colon' value', s)) := rfl

theorem traverse_emptyStmt_eq (q : Nat) (b : Bool) (s : PosState) :
    traverse (.emptyStmt q b) s =
      (.emptyStmt s.p b, if !b then move tokSemicolon s else s) := rfl

theorem traverse_blockStmt_eq (lb : Nat) (stmts : List Node) (rb : Nat) (s : PosState) :
    traverse (.blockStmt lb stmts rb) s =
      (let lbrace' := s.p
       let s := newline (move tokLBrace s)
       let (stmts', s) := traverseList stmts s
       let rbrace' := s.p
       let s := newline (move tokRBrace s)
       (.blockStmt lbrace' stmts' rbrace', s)) := rfl

theorem traverse_field_eq (doc : Option CommentGroup) (names : List Node) (typ : Option Node)
    (s : PosState) :
    traverse (.field doc names typ) s =
      (let (doc', s) := handleComment doc s
       let (names', s) := traverseSeq names s
       let (typ', s) := traverseOpt typ s
       (.field doc' names' typ', s)) := rfl

theorem traverse_fieldList_eq (op : Nat) (fields : List Node) (cl : Nat) (s : PosState) :
    traverse (.fieldList op fields cl) s =
      (let (opening', s) :=
        if op ≠ 0 then
          (let opening' := s.p
           let s := moveN 1 s
           let s := if s.inStruct then newline s else s
           (opening', s))
        else (op, s)
       let (fields', s) := traverseList fields s
       let (closing', s) :=
        if cl ≠ 0 then
          (let closing' := s.p
           let s := moveN 1 s
           let s := if s.inStruct then newline (newline s) else s
           (closing', s))
        else (cl, s)
       (.fieldList opening' fields' closing', s)) := rfl

theorem traverse_structType_eq (q : Nat) (fields : Option Node) (s : PosState) :
    traverse (.structType q fields) s =
      (let structPos' := s.p
       let s := { move tokStruct s with inStruct := true }
       let (fields', s) := traverseOpt fields s
       (.structType structPos' fields', { s with inStruct := false })) := rfl

theorem traverse_funcType_eq (q : Nat) (params results : Option Node) (s : PosState) :
    traverse (.funcType q params results) s =
      (let funcPos' := s.p
       let s := move tokFunc s
       let (params', s) := traverseOpt params s
       let (results', s) := traverseOpt results s
       (.funcType funcPos' params' results', s)) := rfl

theorem traverse_funcDecl_eq (doc : Option CommentGroup) (recv : Option Node) (name typ : Node)
    (body : Option Node) (s : PosState) :
    traverse (.funcDecl doc recv name typ body) s =
      (let (doc', s) := handleComment doc s
       let (recv', s) := traverseOpt recv s
       let (name', s) := traverse name s
       let (typ', s) := traverse typ s
       let (body', s) := traverseOpt body s
       (.funcDecl doc' recv' name' typ' body', newline s)) := rfl

theorem traverse_valueSpec_eq (doc : Option CommentGroup) (names : List Node)
    (typ : Option Node) (values : List Node) (s : PosState) :
    traverse (.valueSpec doc names typ values) s =
      (let (names', s) := traverseSeq names s
       let (typ', s) := traverseOpt typ s
       let (values', s) := traverseSeq values s
       (.valueSpec doc names' typ' values', s)) := rfl

theorem traverse_genDecl_eq (doc : Option CommentGroup) (tp : Nat) (tok : String) (lp : Nat)
    (specs : List Node) (rp : Nat) (s : PosState) :
    traverse (.genDecl doc tp tok lp specs rp) s =
      (let (doc', s) := handleComment doc s
       let tokPos' := s.p
       let s := move tok s
       let (lparen', s) := if lp ≠ 0 then (s.p, newline (move tokLParen s)) else (lp, s)
       let (specs', s) := traverseList specs s
       let (rparen', s) := if rp ≠ 0 then (s.p, newline (move tokRParen s)) else (rp, s)
       (.genDecl doc' tokPos' tok lparen' specs' rparen', s)) := rfl

theorem traverse_file_eq (doc : Option CommentGroup) (pkg : Nat) (name : Node)
    (decls : List Node) (fs fe : Nat) (cs : List CommentGroup) (s : PosState) :
    traverse (.file doc pkg name decls fs fe cs) s =
      (let (doc', s) := handleComment doc s
       let package' := s.p
       let s := moveStr " " (move tokPackage s)
       let (name', s) := traverse name s
       let s := newline s
       let (decls', s) := traverseList decls s
       (.file doc' package' name' decls' fs fe cs, s)) := rfl

theorem traverseOpt_some_eq (n : Node) (s : PosState) :
    traverseOpt (some n) s = (some (traverse n s).1, (traverse n s).2) := by
  simp only [traverseOpt]

theorem traverseSeq_cons_eq (n : Node) (rest : List Node) (s : PosState) :
    traverseSeq (n :: rest) s =
      ((traverse n s).1 :: (traverseSeq rest (traverse n s).2).1,
        (traverseSeq rest (traverse n s).2).2) := by
  simp only [traverseSeq]

theorem traverseLoop_cons_eq (i : Nat) (n : Node) (rest : List Node) (s : PosState) :
    traverseLoop i (n :: rest) s =
      ((traverse n s).1 :: (traverseLoop i rest (bumpIndex i (traverse n s).2)).1,
        (traverseLoop i rest (bumpIndex i (traverse n s).2)).2) := by
  simp only [traverseLoop, bumpIndex]

theorem traverseList_fst (ns : List Node) (s : PosState) :
    (traverseList ns s).1 =
      (traverseLoop s.listSizeStack.length ns (pushFrame ns.length s)).1 := by
  simp only [traverseList, pushFrame_sizeStack, List.length_append, List.length_singleton,
    Nat.add_sub_cancel]

theorem traverseList_p (ns : List Node) (s : PosState) :
    (traverseList ns s).2.p =
      (traverseLoop s.listSizeStack.length ns (pushFrame ns.length s)).2.p := by
  rw [traverseList_snd]
  simp

/-! ### Mandatory position fields are positive (support for C3) -/
theorem positionComments_slash_bounds : ∀ (cs : List Comment) (s : PosState),
    ∀ c ∈ (positionComments cs s).1,
      s.p ≤ c.slash ∧ c.slash ≤ (positionComments cs s).2.p
  | [], s => by simp [positionComments]
  | c :: rest, s => by
      have hcons : positionComments (c :: rest) s =
          (⟨s.p, c.text⟩ :: (positionComments rest (newline (moveStr c.text s))).1,
            (positionComments rest (newline (moveStr c.text s))).2) := by
        simp only [positionComments]
      rw [hcons]
      intro x hx
      rcases List.mem_cons.mp hx with hx | hx
      · subst hx
        refine ⟨le_rfl, ?_⟩
        have := positionComments_p_mono rest (newline (moveStr c.text s))
        simp only [newline_p, moveStr_p] at this
        dsimp only
        omega
      · obtain ⟨hl, hr⟩ := positionComments_slash_bounds rest (newline (moveStr c.text s)) x hx
        refine ⟨le_trans ?_ hl, hr⟩
        simp only [newline_p, moveStr_p]
        omega

theorem handleComment_commentPos (doc : Option CommentGroup) (s : PosState) (h : 1 ≤ s.p) :
    commentPos (handleComment doc s).1 = true := by
  cases doc with
  | none => rfl
  | some g =>
      have hpair : handleComment (some g) s =
          (some ⟨(positionComments g.list (if lineStart s (fileLine s s.p) ≠ s.p
              then newline s else s)).1⟩,
            { (positionComments g.list (if lineStart s (fileLine s s.p) ≠ s.p
                then newline s else s)).2 with
              comments := (positionComments g.list (if lineStart s (fileLine s s.p) ≠ s.p
                then newline s else s)).2.comments ++
                [⟨(positionComments g.list (if lineStart s (fileLine s s.p) ≠ s.p
                  then newline s else s)).1⟩] }) := by
        simp only [handleComment]
      rw [hpair]
      simp only [commentPos, List.all_eq_true, decide_eq_true_eq]
      intro c hc
      have := (positionComments_slash_bounds g.list _ c hc).1
      revert this
      split <;> (intro this; (try simp only [newline_p] at this); omega)

mutual

theorem traverse_mandatory : ∀ (n : Node) (s : PosState), 1 ≤ s.p →
    mandatoryPos (traverse n s).1 = true
  | .ident _ name, s, h1 => by
      rw [traverse_ident_eq]
      simp only [mandatoryPos, decide_eq_true_eq]
      omega
  | .basicLit _ v, s, h1 => by
      rw [traverse_basicLit_eq]
      simp only [mandatoryPos, decide_eq_true_eq]
      omega
  | .callExpr func lp args el rp, s, h1 => by
      rw [traverse_callExpr_eq]
      dsimp only
      have m1 := traverse_p_mono func s
      have m2 := traverseList_p_mono args (traverse func s).2
      have hf := traverse_mandatory func s h1
      have ha : mandatoryPosList (traverseList args (traverse func s).2).1 = true := by
        rw [traverseList_fst]
        exact traverseLoop_mandatory _ args _ (by simp only [pushFrame_p]; omega)
      split <;>
        (dsimp only
         simp only [mandatoryPos, Bool.and_eq_true, decide_eq_true_eq, move_p]
         exact ⟨⟨⟨hf, by omega⟩, ha⟩, by omega⟩)
  | .compositeLit typ lb elts rb, s, h1 => by
      rw [traverse_compositeLit_eq]
      dsimp only
      have m1 := traverseOpt_p_mono typ s
      have ht := traverseOpt_mandatory typ s h1
      split
      · have m2 := traverseList_p_mono elts (newline (move tokLBrace (traverseOpt typ s).2))
        have ha : mandatoryPosList (traverseList elts
            (newline (move tokLBrace (traverseOpt typ s).2))).1 = true := by
          rw [traverseList_fst]
          exact traverseLoop_mandatory _ elts _
            (by simp only [pushFrame_p, newline_p, move_p]; omega)
        simp only [newline_p, move_p, tokLBrace_length] at m2
        simp only [mandatoryPos, Bool.and_eq_true, decide_eq_true_eq, newline_p]
        exact ⟨⟨⟨ht, by omega⟩, ha⟩, by omega⟩
      · have m2 := traverseList_p_mono elts (move tokLBrace (traverseOpt typ s).2)
        have ha : mandatoryPosList (traverseList elts
            (move tokLBrace (traverseOpt typ s).2)).1 = true := by
          rw [traverseList_fst]
          exact traverseLoop_mandatory _ elts _
            (by simp only [pushFrame_p, move_p]; omega)
        simp only [move_p, tokLBrace_length] at m2
        simp only [mandatoryPos, Bool.and_eq_true, decide_eq_true_eq]
        exact ⟨⟨⟨ht, by omega⟩, ha⟩, by omega⟩
  | .keyValueExpr key c value, s, h1 => by
      rw [traverse_keyValueExpr_eq]
      dsimp only
      have m1 := traverse_p_mono key s
      have hk := traverse_mandatory key s h1
      have hv := traverse_mandatory value (move tokColon (traverse key s).2)
        (by simp only [move_p, tokColon_length]; omega)
      simp only [mandatoryPos, Bool.and_eq_true, decide_eq_true_eq]
      exact ⟨⟨hk, by omega⟩, hv⟩
  | .emptyStmt q b, s, h1 => by
      rw [traverse_emptyStmt_eq]
      simp only [mandatoryPos, decide_eq_true_eq]
      omega
  | .blockStmt lb stmts rb, s, h1 => by
      rw [traverse_blockStmt_eq]
      dsimp only
      have m2 := traverseList_p_mono stmts (newline (move tokLBrace s))
      simp only [newline_p, move_p, tokLBrace_length] at m2
      have ha : mandatoryPosList (traverseList stmts (newline (move tokLBrace s))).1 = true := by
        rw [traverseList_fst]
        exact traverseLoop_mandatory _ stmts _
          (by simp only [pushFrame_p, newline_p, move_p]; omega)
      simp only [mandatoryPos, Bool.and_eq_true, decide_eq_true_eq]
      exact ⟨⟨by omega, ha⟩, by omega⟩
  | .field doc names typ, s, h1 => by
      rw [traverse_field_eq]
      dsimp only
      have m1 := handleComment_p_mono doc s
      have m2 := traverseSeq_p_mono names (handleComment doc s).2
      have hd := handleComment_commentPos doc s h1
      have hn := traverseSeq_mandatory names (handleComment doc s).2 (by omega)
      have ht := traverseOpt_mandatory typ (traverseSeq names (handleComment doc s).2).2 (by omega)
      simp only [mandatoryPos, Bool.and_eq_true]
      exact ⟨⟨hd, hn⟩, ht⟩
  | .fieldList op fields cl, s, h1 => by
      rw [traverse_fieldList_eq]
      dsimp only
      by_cases hop : op ≠ 0
      · rw [if_pos hop]
        dsimp only
        by_cases hin : (moveN 1 s).inStruct = true
        · rw [if_pos hin]
          simp only [mandatoryPos]
          rw [traverseList_fst]
          exact traverseLoop_mandatory _ fields _
            (by simp only [pushFrame_p, newline_p, moveN_p]; omega)
        · rw [if_neg hin]
          simp only [mandatoryPos]
          rw [traverseList_fst]
          exact traverseLoop_mandatory _ fields _
            (by simp only [pushFrame_p, moveN_p]; omega)
      · rw [if_neg hop]
        simp only [mandatoryPos]
        rw [traverseList_fst]
        exact traverseLoop_mandatory _ fields _ (by simp only [pushFrame_p]; omega)
  | .structType q fields, s, h1 => by
      rw [traverse_structType_eq]
      dsimp only
      have hf := traverseOpt_mandatory fields { move tokStruct s with inStruct := true }
        (by show 1 ≤ s.p + tokStruct.length; simp only [tokStruct_length]; omega)
      simp only [mandatoryPos, Bool.and_eq_true, decide_eq_true_eq]
      exact ⟨by omega, hf⟩
  | .funcType q params results, s, h1 => by
      rw [traverse_funcType_eq]
      dsimp only
      have m1 := traverseOpt_p_mono params (move tokFunc s)
      simp only [move_p, tokFunc_length] at m1
      have hp := traverseOpt_mandatory params (move tokFunc s)
        (by simp only [move_p, tokFunc_length]; omega)
      have hr := traverseOpt_mandatory results (traverseOpt params (move tokFunc s)).2 (by omega)
      simp only [mandatoryPos, Bool.and_eq_true, decide_eq_true_eq]
      exact ⟨⟨by omega, hp⟩, hr⟩
  | .funcDecl doc recv name typ body, s, h1 => by
      rw [traverse_funcDecl_eq]
      dsimp only
      have m1 := handleComment_p_mono doc s
      have m2 := traverseOpt_p_mono recv (handleComment doc s).2
      have m3 := traverse_p_mono name (traverseOpt recv (handleComment doc s).2).2
      have m4 := traverse_p_mono typ
        (traverse name (traverseOpt recv (handleComment doc s).2).2).2
      have hd := handleComment_commentPos doc s h1
      have hr := traverseOpt_mandatory recv (handleComment doc s).2 (by omega)
      have hn := traverse_mandatory name (traverseOpt recv (handleComment doc s).2).2 (by omega)
      have ht := traverse_mandatory typ
        (traverse name (traverseOpt recv (handleComment doc s).2).2).2 (by omega)
      have hb := traverseOpt_mandatory body
        (traverse typ (traverse name (traverseOpt recv (handleComment doc s).2).2).2).2 (by omega)
      simp only [mandatoryPos, Bool.and_eq_true]
      exact ⟨⟨⟨⟨hd, hr⟩, hn⟩, ht⟩, hb⟩
  | .valueSpec doc names typ values, s, h1 => by
      rw [traverse_valueSpec_eq]
      dsimp only
      have m1 := traverseSeq_p_mono names s
      have m2 := traverseOpt_p_mono typ (traverseSeq names s).2
      have hn := traverseSeq_mandatory names s h1
      have ht := traverseOpt_mandatory typ (traverseSeq names s).2 (by omega)
      have hv := traverseSeq_mandatory values
        (traverseOpt typ (traverseSeq names s).2).2 (by omega)
      simp only [mandatoryPos, Bool.and_eq_true]
      exact ⟨⟨hn, ht⟩, hv⟩
  | .genDecl doc tp tok lp specs rp, s, h1 => by
      rw [traverse_genDecl_eq]
      dsimp only
      have m1 := handleComment_p_mono doc s
      have hd := handleComment_commentPos doc s h1
      by_cases hlp : lp ≠ 0
      · rw [if_pos hlp]
        dsimp only
        have ha : mandatoryPosList (traverseList specs
            (newline (move tokLParen (move tok (handleComment doc s).2)))).1 = true := by
          rw [traverseList_fst]
          exact traverseLoop_mandatory _ specs _
            (by simp only [pushFrame_p, newline_p, move_p]; omega)
        simp only [mandatoryPos, Bool.and_eq_true, decide_eq_true_eq, move_p]
        exact ⟨⟨hd, by omega⟩, ha⟩
      · rw [if_neg hlp]
        dsimp only
        have ha : mandatoryPosList (traverseList specs
            (move tok (handleComment doc s).2)).1 = true := by
          rw [traverseList_fst]
          exact traverseLoop_mandatory _ specs _
            (by simp only [pushFrame_p, move_p]; omega)
        simp only [mandatoryPos, Bool.and_eq_true, decide_eq_true_eq, move_p]
        exact ⟨⟨hd, by omega⟩, ha⟩
  | .file doc pkg name decls fs fe cs, s, h1 => by
      rw [traverse_file_eq]
      dsimp only
      have m1 := handleComment_p_mono doc s
      have m2 := traverse_p_mono name (moveStr " " (move tokPackage (handleComment doc s).2))
      simp only [moveStr_p, move_p, tokPackage_length] at m2
      have hd := handleComment_commentPos doc s h1
      have hn := traverse_mandatory name (moveStr " " (move tokPackage (handleComment doc s).2))
        (by simp only [moveStr_p, move_p, tokPackage_length]; omega)
      have ha : mandatoryPosList (traverseList decls
          (newline (traverse name (moveStr " " (move tokPackage (handleComment doc s).2))).2)).1
            = true := by
        rw [traverseList_fst]
        exact traverseLoop_mandatory _ decls _ (by simp only [pushFrame_p, newline_p]; omega)
      simp only [mandatoryPos, Bool.and_eq_true, decide_eq_true_eq]
      exact ⟨⟨⟨hd, by omega⟩, hn⟩, ha⟩
  termination_by structural n => n

theorem traverseOpt_mandatory : ∀ (o : Option Node) (s : PosState), 1 ≤ s.p →
    mandatoryPosOpt (traverseOpt o s).1 = true
  | none, s, _ => rfl
  | some n, s, h1 => by
      rw [traverseOpt_some_eq]
      simpa only [mandatoryPosOpt] using traverse_mandatory n s h1
  termination_by structural o => o

theorem traverseSeq_mandatory : ∀ (ns : List Node) (s : PosState), 1 ≤ s.p →
    mandatoryPosList (traverseSeq ns s).1 = true
  | [], s, _ => rfl
  | n :: rest, s, h1 => by
      rw [traverseSeq_cons_eq]
      simp only [mandatoryPosList, Bool.and_eq_true]
      refine ⟨traverse_mandatory n s h1, ?_⟩
      exact traverseSeq_mandatory rest (traverse n s).2 (le_trans h1 (traverse_p_mono n s))
  termination_by structural ns => ns

theorem traverseLoop_mandatory : ∀ (i : Nat) (ns : List Node) (s : PosState), 1 ≤ s.p →
    mandatoryPosList (traverseLoop i ns s).1 = true
  | _, [], s, _ => rfl
  | i, n :: rest, s, h1 => by
      rw [traverseLoop_cons_eq]
      simp only [mandatoryPosList, Bool.and_eq_true]
      refine ⟨traverse_mandatory n s h1, ?_⟩
      refine traverseLoop_mandatory i rest (bumpIndex i (traverse n s).2) ?_
      simp only [bumpIndex_p]
      exact le_trans h1 (traverse_p_mono n s)
  termination_by structural _ ns => ns

end

theorem posOk_zero (lo hi : Nat) : posOk lo hi 0 = true := by simp [posOk]

theorem posOk_between {lo hi v : Nat} (h1 : lo ≤ v) (h2 : v ≤ hi) : posOk lo hi v = true := by
  simp [posOk]; omega

theorem posOk_widen {lo hi lo' hi' v : Nat} (hl : lo' ≤ lo) (hh : hi ≤ hi')
    (h : posOk lo hi v = true) : posOk lo' hi' v = true := by
  simp only [posOk, Bool.or_eq_true, Bool.and_eq_true, decide_eq_true_eq] at h ⊢
  omega

theorem commentWithin_widen {lo hi lo' hi' : Nat} {g : Option CommentGroup}
    (hl : lo' ≤ lo) (hh : hi ≤ hi') (h : commentWithin lo hi g = true) :
    commentWithin lo' hi' g = true := by
  cases g with
  | none => rfl
  | some g =>
      simp only [commentWithin, List.all_eq_true] at h ⊢
      exact fun c hc => posOk_widen hl hh (h c hc)

theorem handleComment_within (doc : Option CommentGroup) (s : PosState) :
    commentWithin s.p (handleComment doc s).2.p (handleComment doc s).1 = true := by
  cases doc with
  | none => rfl
  | some g =>
      have hpair : handleComment (some g) s =
          (some ⟨(positionComments g.list (if lineStart s (fileLine s s.p) ≠ s.p
              then newline s else s)).1⟩,
            { (positionComments g.list (if lineStart s (fileLine s s.p) ≠ s.p
                then newline s else s)).2 with
              comments := (positionComments g.list (if lineStart s (fileLine s s.p) ≠ s.p
                then newline s else s)).2.comments ++
                [⟨(positionComments g.list (if lineStart s (fileLine s s.p) ≠ s.p
                  then newline s else s)).1⟩] }) := by
        simp only [handleComment]
      rw [hpair]
      simp only [commentWithin, List.all_eq_true]
      intro c hc
      obtain ⟨hl, hr⟩ := positionComments_slash_bounds g.list _ c hc
      refine posOk_between (le_trans ?_ hl) hr
      split <;> simp

mutual

theorem fieldsWithin_widen : ∀ (n : Node) {lo hi lo' hi' : Nat}, lo' ≤ lo → hi ≤ hi' →
    fieldsWithin lo hi n = true → fieldsWithin lo' hi' n = true
  | .ident np _, _, _, _, _, hl, hh, h => by
      simpa only [fieldsWithin] using posOk_widen hl hh (by simpa [fieldsWithin] using h)
  | .basicLit vp _, _, _, _, _, hl, hh, h => by
      simpa only [fieldsWithin] using posOk_widen hl hh (by simpa [fieldsWithin] using h)
  | .callExpr func lp args el rp, _, _, _, _, hl, hh, h => by
      simp only [fieldsWithin, Bool.and_eq_true] at h ⊢
      exact ⟨⟨⟨⟨fieldsWithin_widen func hl hh h.1.1.1.1, posOk_widen hl hh h.1.1.1.2⟩,
        fieldsWithinList_widen args hl hh h.1.1.2⟩, posOk_widen hl hh h.1.2⟩,
        posOk_widen hl hh h.2⟩
  | .compositeLit typ lb elts rb, _, _, _, _, hl, hh, h => by
      simp only [fieldsWithin, Bool.and_eq_true] at h ⊢
      exact ⟨⟨⟨fieldsWithinOpt_widen typ hl hh h.1.1.1, posOk_widen hl hh h.1.1.2⟩,
        fieldsWithinList_widen elts hl hh h.1.2⟩, posOk_widen hl hh h.2⟩
  | .keyValueExpr k c v, _, _, _, _, hl, hh, h => by
      simp only [fieldsWithin, Bool.and_eq_true] at h ⊢
      exact ⟨⟨fieldsWithin_widen k hl hh h.1.1, posOk_widen hl hh h.1.2⟩,
        fieldsWithin_widen v hl hh h.2⟩
  | .emptyStmt sc _, _, _, _, _, hl, hh, h => by
      simpa only [fieldsWithin] using posOk_widen hl hh (by simpa [fieldsWithin] using h)
  | .blockStmt lb stmts rb, _, _, _, _, hl, hh, h => by
      simp only [fieldsWithin, Bool.and_eq_true] at h ⊢
      exact ⟨⟨posOk_widen hl hh h.1.1, fieldsWithinList_widen stmts hl hh h.1.2⟩,
        posOk_widen hl hh h.2⟩
  | .field doc names typ, _, _, _, _, hl, hh, h => by
      simp only [fieldsWithin, Bool.and_eq_true] at h ⊢
      exact ⟨⟨commentWithin_widen hl hh h.1.1, fieldsWithinList_widen names hl hh h.1.2⟩,
        fieldsWithinOpt_widen typ hl hh h.2⟩
  | .fieldList op fs cl, _, _, _, _, hl, hh, h => by
      simp only [fieldsWithin, Bool.and_eq_true] at h ⊢
      exact ⟨⟨posOk_widen hl hh h.1.1, fieldsWithinList_widen fs hl hh h.1.2⟩,
        posOk_widen hl hh h.2⟩
  | .structType sp fs, _, _, _, _, hl, hh, h => by
      simp only [fieldsWithin, Bool.and_eq_true] at h ⊢
      exact ⟨posOk_widen hl hh h.1, fieldsWithinOpt_widen fs hl hh h.2⟩
  | .funcType fp ps rs, _, _, _, _, hl, hh, h => by
      simp only [fieldsWithin, Bool.and_eq_true] at h ⊢
      exact ⟨⟨posOk_widen hl hh h.1.1, fieldsWithinOpt_widen ps hl hh h.1.2⟩,
        fieldsWithinOpt_widen rs hl hh h.2⟩
  | .funcDecl doc recv name typ body, _, _, _, _, hl, hh, h => by
      simp only [fieldsWithin, Bool.and_eq_true] at h ⊢
      exact ⟨⟨⟨⟨commentWithin_widen hl hh h.1.1.1.1, fieldsWithinOpt_widen recv hl hh h.1.1.1.2⟩,
        fieldsWithin_widen name hl hh h.1.1.2⟩, fieldsWithin_widen typ hl hh h.1.2⟩,
        fieldsWithinOpt_widen body hl hh h.2⟩
  | .valueSpec doc names typ values, _, _, _, _, hl, hh, h => by
      simp only [fieldsWithin, Bool.and_eq_true] at h ⊢
      exact ⟨⟨⟨commentWithin_widen hl hh h.1.1.1, fieldsWithinList_widen names hl hh h.1.1.2⟩,
        fieldsWithinOpt_widen typ hl hh h.1.2⟩, fieldsWithinList_widen values hl hh h.2⟩
  | .genDecl doc tp _ lp specs rp, _, _, _, _, hl, hh, h => by
      simp only [fieldsWithin, Bool.and_eq_true] at h ⊢
      exact ⟨⟨⟨⟨commentWithin_widen hl hh h.1.1.1.1, posOk_widen hl hh h.1.1.1.2⟩,
        posOk_widen hl hh h.1.1.2⟩, fieldsWithinList_widen specs hl hh h.1.2⟩,
        posOk_widen hl hh h.2⟩
  | .file doc pkg name decls fs fe _, _, _, _, _, hl, hh, h => by
      simp only [fieldsWithin, Bool.and_eq_true] at h ⊢
      exact ⟨⟨⟨⟨⟨commentWithin_widen hl hh h.1.1.1.1.1, posOk_widen hl hh h.1.1.1.1.2⟩,
        fieldsWithin_widen name hl hh h.1.1.1.2⟩, fieldsWithinList_widen decls hl hh h.1.1.2⟩,
        posOk_widen hl hh h.1.2⟩, posOk_widen hl hh h.2⟩
  termination_by structural n => n

theorem fieldsWithinOpt_widen : ∀ (o : Option Node) {lo hi lo' hi' : Nat}, lo' ≤ lo → hi ≤ hi' →
    fieldsWithinOpt lo hi o = true → fieldsWithinOpt lo' hi' o = true
  | none, _, _, _, _, _, _, _ => rfl
  | some n, _, _, _, _, hl, hh, h => by
      simpa only [fieldsWithinOpt] using fieldsWithin_widen n hl hh
        (by simpa only [fieldsWithinOpt] using h)
  termination_by structural o => o

theorem fieldsWithinList_widen : ∀ (ns : List Node) {lo hi lo' hi' : Nat}, lo' ≤ lo → hi ≤ hi' →
    fieldsWithinList lo hi ns = true → fieldsWithinList lo' hi' ns = true
  | [], _, _, _, _, _, _, _ => rfl
  | n :: rest, _, _, _, _, hl, hh, h => by
      simp only [fieldsWithinList, Bool.and_eq_true] at h ⊢
      exact ⟨fieldsWithin_widen n hl hh h.1, fieldsWithinList_widen rest hl hh h.2⟩
  termination_by structural ns => ns

end

theorem unsetComment_within {g : Option CommentGroup} (h : unsetComment g = true)
    (lo hi : Nat) : commentWithin lo hi g = true := by
  cases g with
  | none => rfl
  | some g =>
      simp only [unsetComment, List.all_eq_true, beq_iff_eq] at h
      simp only [commentWithin, List.all_eq_true]
      intro c hc
      rw [h c hc]
      exact posOk_zero lo hi

theorem ite_newline_p_ge (c : Prop) [Decidable c] (s : PosState) :
    s.p ≤ (if c then newline s else s).p := by
  split <;> simp

mutual

theorem traverse_within : ∀ (n : Node) (s : PosState), allUnset n = true →
    fieldsWithin s.p (traverse n s).2.p (traverse n s).1 = true
  | .ident _ name, s, _ => by
      rw [traverse_ident_eq]
      simp only [fieldsWithin]
      exact posOk_between le_rfl (by simp)
  | .basicLit _ v, s, _ => by
      rw [traverse_basicLit_eq]
      simp only [fieldsWithin]
      exact posOk_between le_rfl (by simp)
  | .callExpr func lp args el rp, s, hu => by
      simp only [allUnset, Bool.and_eq_true, beq_iff_eq] at hu
      obtain ⟨⟨⟨⟨huf, _⟩, hua⟩, huel⟩, _⟩ := hu
      rw [traverse_callExpr_eq]
      dsimp only
      rw [if_neg (by omega : ¬el ≠ 0)]
      dsimp only
      have m1 := traverse_p_mono func s
      have m2 := traverseList_p_mono args (traverse func s).2
      have hf := traverse_within func s huf
      have ha := traverseLoop_within (traverse func s).2.listSizeStack.length args
        (pushFrame args.length (traverse func s).2) hua
      rw [pushFrame_p, ← traverseList_p, ← traverseList_fst] at ha
      simp only [fieldsWithin, Bool.and_eq_true]
      refine ⟨⟨⟨⟨?_, ?_⟩, ?_⟩, ?_⟩, ?_⟩
      · exact fieldsWithin_widen _ le_rfl m2 hf
      · exact posOk_between m1 m2
      · exact fieldsWithinList_widen _ m1 le_rfl ha
      · rw [huel]; exact posOk_zero _ _
      · exact posOk_between (le_trans m1 m2) le_rfl
  | .compositeLit typ lb elts rb, s, hu => by
      simp only [allUnset, Bool.and_eq_true, beq_iff_eq] at hu
      obtain ⟨⟨⟨hut, _⟩, hue⟩, _⟩ := hu
      rw [traverse_compositeLit_eq]
      dsimp only
      have m1 := traverseOpt_p_mono typ s
      have ht := traverseOpt_within typ s hut
      by_cases hdn : (hasNestedComposite elts
          || (hasNestedKeyValue elts && !(decide (elts.length = 1)))
          || decide (4 ≤ elts.length)) = true
      · simp only [if_pos hdn]
        have m2 := traverseList_p_mono elts (newline (move tokLBrace (traverseOpt typ s).2))
        have ha := traverseLoop_within
          (newline (move tokLBrace (traverseOpt typ s).2)).listSizeStack.length elts
          (pushFrame elts.length (newline (move tokLBrace (traverseOpt typ s).2))) hue
        rw [pushFrame_p, ← traverseList_p, ← traverseList_fst] at ha
        simp only [newline_p, move_p, tokLBrace_length] at m2 ha
        simp only [fieldsWithin, Bool.and_eq_true]
        refine ⟨⟨⟨?_, ?_⟩, ?_⟩, ?_⟩
        · refine fieldsWithinOpt_widen _ le_rfl (le_trans ?_ (ite_newline_p_ge _ _)) ht
          simp only [newline_p, move_p, tokRBrace_length]
          omega
        · refine posOk_between m1 (le_trans ?_ (ite_newline_p_ge _ _))
          simp only [newline_p, move_p, tokRBrace_length]
          omega
        · refine fieldsWithinList_widen _ (by omega) (le_trans ?_ (ite_newline_p_ge _ _)) ha
          simp only [newline_p, move_p, tokRBrace_length]
          omega
        · refine posOk_between ?_ (le_trans ?_ (ite_newline_p_ge _ _))
          · simp only [newline_p]
            omega
          · simp only [newline_p, move_p, tokRBrace_length]
            omega
      · simp only [if_neg hdn]
        have m2 := traverseList_p_mono elts (move tokLBrace (traverseOpt typ s).2)
        have ha := traverseLoop_within
          (move tokLBrace (traverseOpt typ s).2).listSizeStack.length elts
          (pushFrame elts.length (move tokLBrace (traverseOpt typ s).2)) hue
        rw [pushFrame_p, ← traverseList_p, ← traverseList_fst] at ha
        simp only [move_p, tokLBrace_length] at m2 ha
        simp only [fieldsWithin, Bool.and_eq_true]
        refine ⟨⟨⟨?_, ?_⟩, ?_⟩, ?_⟩
        · refine fieldsWithinOpt_widen _ le_rfl (le_trans ?_ (ite_newline_p_ge _ _)) ht
          simp only [move_p, tokRBrace_length]
          omega
        · refine posOk_between m1 (le_trans ?_ (ite_newline_p_ge _ _))
          simp only [move_p, tokRBrace_length]
          omega
        · refine fieldsWithinList_widen _ (by omega) (le_trans ?_ (ite_newline_p_ge _ _)) ha
          simp only [move_p, tokRBrace_length]
          omega
        · refine posOk_between (by omega) (le_trans ?_ (ite_newline_p_ge _ _))
          simp only [move_p, tokRBrace_length]
          omega
  | .keyValueExpr key c value, s, hu => by
      simp only [allUnset, Bool.and_eq_true, beq_iff_eq] at hu
      obtain ⟨⟨huk, _⟩, huv⟩ := hu
      rw [traverse_keyValueExpr_eq]
      dsimp only
      have m1 := traverse_p_mono key s
      have m2 := traverse_p_mono value (move tokColon (traverse key s).2)
      simp only [move_p, tokColon_length] at m2
      have hk := traverse_within key s huk
      have hv := traverse_within value (move tokColon (traverse key s).2) huv
      simp only [move_p, tokColon_length] at hv
      simp only [fieldsWithin, Bool.and_eq_true]
      refine ⟨⟨?_, ?_⟩, ?_⟩
      · refine fieldsWithin_widen _ le_rfl (le_trans ?_ (ite_newline_p_ge _ _)) hk
        omega
      · refine posOk_between m1 (le_trans ?_ (ite_newline_p_ge _ _))
        omega
      · exact fieldsWithin_widen _ (by omega) (ite_newline_p_ge _ _) hv
  | .emptyStmt q b, s, _ => by
      rw [traverse_emptyStmt_eq]
      simp only [fieldsWithin]
      refine posOk_between le_rfl ?_
      split <;> simp
  | .blockStmt lb stmts rb, s, hu => by
      simp only [allUnset, Bool.and_eq_true, beq_iff_eq] at hu
      obtain ⟨⟨_, hus⟩, _⟩ := hu
      rw [traverse_blockStmt_eq]
      dsimp only
      have m2 := traverseList_p_mono stmts (newline (move tokLBrace s))
      have ha := traverseLoop_within (newline (move tokLBrace s)).listSizeStack.length stmts
        (pushFrame stmts.length (newline (move tokLBrace s))) hus
      rw [pushFrame_p, ← traverseList_p, ← traverseList_fst] at ha
      simp only [newline_p, move_p, tokLBrace_length] at m2 ha
      simp only [fieldsWithin, Bool.and_eq_true, newline_p, move_p, tokRBrace_length]
      refine ⟨⟨?_, ?_⟩, ?_⟩
      · exact posOk_between le_rfl (by omega)
      · exact fieldsWithinList_widen _ (by omega) (by omega) ha
      · exact posOk_between (by omega) (by omega)
  | .field doc names typ, s, hu => by
      simp only [allUnset, Bool.and_eq_true] at hu
      obtain ⟨⟨_, hun⟩, hut⟩ := hu
      rw [traverse_field_eq]
      dsimp only
      have m1 := handleComment_p_mono doc s
      have m2 := traverseSeq_p_mono names (handleComment doc s).2
      have m3 := traverseOpt_p_mono typ (traverseSeq names (handleComment doc s).2).2
      have hd := handleComment_within doc s
      have hn := traverseSeq_within names (handleComment doc s).2 hun
      have ht := traverseOpt_within typ (traverseSeq names (handleComment doc s).2).2 hut
      simp only [fieldsWithin, Bool.and_eq_true]
      refine ⟨⟨?_, ?_⟩, ?_⟩
      · exact commentWithin_widen le_rfl (by omega) hd
      · exact fieldsWithinList_widen _ (by omega) (by omega) hn
      · exact fieldsWithinOpt_widen _ (by omega) le_rfl ht
  | .fieldList op fields cl, s, hu => by
      simp only [allUnset, Bool.and_eq_true, beq_iff_eq] at hu
      obtain ⟨⟨huop, huf⟩, hucl⟩ := hu
      rw [traverse_fieldList_eq]
      dsimp only
      rw [if_neg (by omega : ¬op ≠ 0), if_neg (by omega : ¬cl ≠ 0)]
      dsimp only
      have ha := traverseLoop_within s.listSizeStack.length fields
        (pushFrame fields.length s) huf
      rw [pushFrame_p, ← traverseList_p, ← traverseList_fst] at ha
      simp only [fieldsWithin, Bool.and_eq_true]
      refine ⟨⟨?_, ha⟩, ?_⟩
      · rw [huop]; exact posOk_zero _ _
      · rw [hucl]; exact posOk_zero _ _
  | .structType q fields, s, hu => by
      simp only [allUnset, Bool.and_eq_true, beq_iff_eq] at hu
      obtain ⟨_, huf⟩ := hu
      rw [traverse_structType_eq]
      dsimp only
      have m1 := traverseOpt_p_mono fields { move tokStruct s with inStruct := true }
      have hf := traverseOpt_within fields { move tokStruct s with inStruct := true } huf
      dsimp only at m1 hf
      have hm : s.p ≤ (move tokStruct s).p := by simp
      simp only [fieldsWithin, Bool.and_eq_true]
      refine ⟨?_, ?_⟩
      · refine posOk_between le_rfl ?_
        dsimp only
        omega
      · refine fieldsWithinOpt_widen _ (by omega) ?_ hf
        dsimp only
        omega
  | .funcType q params results, s, hu => by
      simp only [allUnset, Bool.and_eq_true, beq_iff_eq] at hu
      obtain ⟨⟨_, hup⟩, hur⟩ := hu
      rw [traverse_funcType_eq]
      dsimp only
      have m1 := traverseOpt_p_mono params (move tokFunc s)
      have m2 := traverseOpt_p_mono results (traverseOpt params (move tokFunc s)).2
      simp only [move_p, tokFunc_length] at m1
      have hp := traverseOpt_within params (move tokFunc s) hup
      simp only [move_p, tokFunc_length] at hp
      have hr := traverseOpt_within results (traverseOpt params (move tokFunc s)).2 hur
      simp only [fieldsWithin, Bool.and_eq_true]
      refine ⟨⟨?_, ?_⟩, ?_⟩
      · exact posOk_between le_rfl (by omega)
      · exact fieldsWithinOpt_widen _ (by omega) (by omega) hp
      · exact fieldsWithinOpt_widen _ (by omega) le_rfl hr
  | .funcDecl doc recv name typ body, s, hu => by
      simp only [allUnset, Bool.and_eq_true] at hu
      obtain ⟨⟨⟨⟨_, hur⟩, hun⟩, hut⟩, hub⟩ := hu
      rw [traverse_funcDecl_eq]
      dsimp only
      have m1 := handleComment_p_mono doc s
      have m2 := traverseOpt_p_mono recv (handleComment doc s).2
      have m3 := traverse_p_mono name (traverseOpt recv (handleComment doc s).2).2
      have m4 := traverse_p_mono typ
        (traverse name (traverseOpt recv (handleComment doc s).2).2).2
      have m5 := traverseOpt_p_mono body
        (traverse typ (traverse name (traverseOpt recv (handleComment doc s).2).2).2).2
      have hd := handleComment_within doc s
      have hr := traverseOpt_within recv (handleComment doc s).2 hur
      have hn := traverse_within name (traverseOpt recv (handleComment doc s).2).2 hun
      have ht := traverse_within typ
        (traverse name (traverseOpt recv (handleComment doc s).2).2).2 hut
      have hb := traverseOpt_within body
        (traverse typ (traverse name (traverseOpt recv (handleComment doc s).2).2).2).2 hub
      simp only [fieldsWithin, Bool.and_eq_true, newline_p]
      refine ⟨⟨⟨⟨?_, ?_⟩, ?_⟩, ?_⟩, ?_⟩
      · exact commentWithin_widen le_rfl (by omega) hd
      · exact fieldsWithinOpt_widen _ (by omega) (by omega) hr
      · exact fieldsWithin_widen _ (by omega) (by omega) hn
      · exact fieldsWithin_widen _ (by omega) (by omega) ht
      · exact fieldsWithinOpt_widen _ (by omega) (by omega) hb
  | .valueSpec doc names typ values, s, hu => by
      simp only [allUnset, Bool.and_eq_true] at hu
      obtain ⟨⟨⟨hud, hun⟩, hut⟩, huv⟩ := hu
      rw [traverse_valueSpec_eq]
      dsimp only
      have m1 := traverseSeq_p_mono names s
      have m2 := traverseOpt_p_mono typ (traverseSeq names s).2
      have m3 := traverseSeq_p_mono values (traverseOpt typ (traverseSeq names s).2).2
      have hn := traverseSeq_within names s hun
      have ht := traverseOpt_within typ (traverseSeq names s).2 hut
      have hv := traverseSeq_within values (traverseOpt typ (traverseSeq names s).2).2 huv
      simp only [fieldsWithin, Bool.and_eq_true]
      refine ⟨⟨⟨?_, ?_⟩, ?_⟩, ?_⟩
      · exact unsetComment_within hud _ _
      · exact fieldsWithinList_widen _ le_rfl (by omega) hn
      · exact fieldsWithinOpt_widen _ (by omega) (by omega) ht
      · exact fieldsWithinList_widen _ (by omega) le_rfl hv
  | .genDecl doc tp tok lp specs rp, s, hu => by
      simp only [allUnset, Bool.and_eq_true, beq_iff_eq] at hu
      obtain ⟨⟨⟨⟨_, _⟩, hulp⟩, hus⟩, hurp⟩ := hu
      rw [traverse_genDecl_eq]
      dsimp only
      rw [if_neg (by omega : ¬lp ≠ 0), if_neg (by omega : ¬rp ≠ 0)]
      dsimp only
      have m1 := handleComment_p_mono doc s
      have m2 := traverseList_p_mono specs (move tok (handleComment doc s).2)
      simp only [move_p] at m2
      have hd := handleComment_within doc s
      have ha := traverseLoop_within (move tok (handleComment doc s).2).listSizeStack.length
        specs (pushFrame specs.length (move tok (handleComment doc s).2)) hus
      rw [pushFrame_p, ← traverseList_p, ← traverseList_fst] at ha
      simp only [move_p] at ha
      simp only [fieldsWithin, Bool.and_eq_true]
      refine ⟨⟨⟨⟨?_, ?_⟩, ?_⟩, ?_⟩, ?_⟩
      · exact commentWithin_widen le_rfl (by omega) hd
      · exact posOk_between (by omega) (by omega)
      · rw [hulp]; exact posOk_zero _ _
      · exact fieldsWithinList_widen _ (by omega) le_rfl ha
      · rw [hurp]; exact posOk_zero _ _
  | .file doc pkg name decls fs fe cs, s, hu => by
      simp only [allUnset, Bool.and_eq_true, beq_iff_eq] at hu
      obtain ⟨⟨⟨⟨⟨_, _⟩, hun⟩, hud⟩, hufs⟩, hufe⟩ := hu
      rw [traverse_file_eq]
      dsimp only
      have m1 := handleComment_p_mono doc s
      have m2 := traverse_p_mono name (moveStr " " (move tokPackage (handleComment doc s).2))
      simp only [moveStr_p, move_p, tokPackage_length] at m2
      have m3 := traverseList_p_mono decls
        (newline (traverse name (moveStr " " (move tokPackage (handleComment doc s).2))).2)
      simp only [newline_p] at m3
      have hd := handleComment_within doc s
      have hn := traverse_within name
        (moveStr " " (move tokPackage (handleComment doc s).2)) hun
      simp only [moveStr_p, move_p, tokPackage_length] at hn
      have ha := traverseLoop_within
        (newline (traverse name (moveStr " " (move tokPackage
          (handleComment doc s).2))).2).listSizeStack.length decls
        (pushFrame decls.length (newline (traverse name (moveStr " " (move tokPackage
          (handleComment doc s).2))).2)) hud
      rw [pushFrame_p, ← traverseList_p, ← traverseList_fst] at ha
      simp only [newline_p] at ha
      simp only [fieldsWithin, Bool.and_eq_true]
      refine ⟨⟨⟨⟨⟨?_, ?_⟩, ?_⟩, ?_⟩, ?_⟩, ?_⟩
      · exact commentWithin_widen le_rfl (by omega) hd
      · exact posOk_between (by omega) (by omega)
      · exact fieldsWithin_widen _ (by omega) (by omega) hn
      · exact fieldsWithinList_widen _ (by omega) le_rfl ha
      · rw [hufs]; exact posOk_zero _ _
      · rw [hufe]; exact posOk_zero _ _
  termination_by structural n => n

theorem traverseOpt_within : ∀ (o : Option Node) (s : PosState), allUnsetOpt o = true →
    fieldsWithinOpt s.p (traverseOpt o s).2.p (traverseOpt o s).1 = true
  | none, s, _ => rfl
  | some n, s, hu => by
      rw [traverseOpt_some_eq]
      simpa only [fieldsWithinOpt] using traverse_within n s (by simpa [allUnsetOpt] using hu)
  termination_by structural o => o

theorem traverseSeq_within : ∀ (ns : List Node) (s : PosState), allUnsetList ns = true →
    fieldsWithinList s.p (traverseSeq ns s).2.p (traverseSeq ns s).1 = true
  | [], s, _ => rfl
  | n :: rest, s, hu => by
      simp only [allUnsetList, Bool.and_eq_true] at hu
      rw [traverseSeq_cons_eq]
      simp only [fieldsWithinList, Bool.and_eq_true]
      have m1 := traverse_p_mono n s
      have m2 := traverseSeq_p_mono rest (traverse n s).2
      refine ⟨fieldsWithin_widen _ le_rfl m2 (traverse_within n s hu.1), ?_⟩
      exact fieldsWithinList_widen _ m1 le_rfl
        (traverseSeq_within rest (traverse n s).2 hu.2)
  termination_by structural ns => ns

theorem traverseLoop_within : ∀ (i : Nat) (ns : List Node) (s : PosState),
    allUnsetList ns = true →
    fieldsWithinList s.p (traverseLoop i ns s).2.p (traverseLoop i ns s).1 = true
  | _, [], s, _ => rfl
  | i, n :: rest, s, hu => by
      simp only [allUnsetList, Bool.and_eq_true] at hu
      rw [traverseLoop_cons_eq]
      simp only [fieldsWithinList, Bool.and_eq_true]
      have m1 := traverse_p_mono n s
      have m2 := traverseLoop_p_mono i rest (bumpIndex i (traverse n s).2)
      simp only [bumpIndex_p] at m2
      refine ⟨fieldsWithin_widen _ le_rfl m2 (traverse_within n s hu.1), ?_⟩
      have hrest := traverseLoop_within i rest (bumpIndex i (traverse n s).2) hu.2
      simp only [bumpIndex_p] at hrest
      exact fieldsWithinList_widen _ m1 le_rfl hrest
  termination_by structural _ ns => ns

end

theorem traverseList_within (ns : List Node) (s : PosState) (hu : allUnsetList ns = true) :
    fieldsWithinList s.p (traverseList ns s).2.p (traverseList ns s).1 = true := by
  have ha := traverseLoop_within s.listSizeStack.length ns (pushFrame ns.length s) hu
  rw [pushFrame_p, ← traverseList_p, ← traverseList_fst] at ha
  exact ha

/-! ### Top-level orchestration plumbing -/
theorem positionTokens_eq (root : Node) (s : PosState) :
    positionTokens root s =
      (setComments (traverse (setFileStart 1 root) s).2.comments
        (setFileEnd (traverse (setFileStart 1 root) s).2.p
          (traverse (setFileStart 1 root) s).1),
       (traverse (setFileStart 1 root) s).2) := rfl

theorem setFileStart_nonfile {n : Node} (h : isFile n = false) (v : Nat) :
    setFileStart v n = n := by
  cases n <;> first | rfl | simp [isFile] at h

theorem setFileEnd_nonfile {n : Node} (h : isFile n = false) (v : Nat) :
    setFileEnd v n = n := by
  cases n <;> first | rfl | simp [isFile] at h

theorem setComments_nonfile {n : Node} (h : isFile n = false) (cs : List CommentGroup) :
    setComments cs n = n := by
  cases n <;> first | rfl | simp [isFile] at h

theorem traverse_isFile (n : Node) (s : PosState) : isFile (traverse n s).1 = isFile n := by
  cases n <;> rfl

theorem mandatoryPos_setFileEnd (v : Nat) (n : Node) :
    mandatoryPos (setFileEnd v n) = mandatoryPos n := by
  cases n <;> rfl

theorem mandatoryPos_setComments (cs : List CommentGroup) (n : Node) :
    mandatoryPos (setComments cs n) = mandatoryPos n := by
  cases n <;> rfl

theorem fileSpan_setFileStart (v : Nat) (n : Node) :
    fileSpan (setFileStart v n) = (fileSpan n).map fun q => (v, q.2) := by
  cases n <;> rfl

theorem fileSpan_setFileEnd (v : Nat) (n : Node) :
    fileSpan (setFileEnd v n) = (fileSpan n).map fun q => (q.1, v) := by
  cases n <;> rfl

theorem fileSpan_setComments (cs : List CommentGroup) (n : Node) :
    fileSpan (setComments cs n) = fileSpan n := by
  cases n <;> rfl

theorem fileSpan_traverse (n : Node) (s : PosState) :
    fileSpan (traverse n s).1 = fileSpan n := by
  cases n <;> rfl

theorem rootSpanOk_eq (n : Node) (e : Nat) :
    rootSpanOk n e = (match fileSpan n with
      | none => true
      | some q => q.1 == 1 && q.2 == e) := by
  cases n <;> rfl

/-- Every mandatory position field of the synthesized tree is positive. -/
theorem rewritePositions_mandatory (f : Node) :
    mandatoryPos (rewritePositions f).1 = true := by
  rw [rewritePositions, positionTokens_eq]
  dsimp only
  rw [mandatoryPos_setComments, mandatoryPos_setFileEnd]
  exact traverse_mandatory _ initState le_rfl

/-- On a file root the orchestration records start 1 and the final
counter as the end boundary. -/
theorem rewritePositions_rootSpan (f : Node) :
    rootSpanOk (rewritePositions f).1 (rewritePositions f).2.p = true := by
  rw [rewritePositions, positionTokens_eq]
  dsimp only
  rw [rootSpanOk_eq, fileSpan_setComments, fileSpan_setFileEnd, fileSpan_traverse,
    fileSpan_setFileStart]
  cases hq : fileSpan f with
  | none => rfl
  | some q => simp

/-- Every assigned position field of the synthesized tree lies between
the root's recorded start boundary 1 and the final counter. -/
theorem rewritePositions_within (f : Node) (hu : allUnset f = true) :
    fieldsWithin 1 (rewritePositions f).2.p (rewritePositions f).1 = true := by
  rw [rewritePositions, positionTokens_eq]
  dsimp only
  by_cases hf : isFile f = true
  · cases f <;> try simp [isFile] at hf
    next d pk nm ds fs fe cs =>
      simp only [allUnset, Bool.and_eq_true, beq_iff_eq] at hu
      obtain ⟨⟨⟨⟨⟨_, _⟩, hun⟩, hud⟩, _⟩, _⟩ := hu
      rw [show setFileStart 1 (Node.file d pk nm ds fs fe cs) =
        Node.file d pk nm ds 1 fe cs from rfl]
      rw [traverse_file_eq]
      dsimp only
      simp only [setFileEnd, setComments]
      have h0 : initState.p = 1 := rfl
      have m1 := handleComment_p_mono d initState
      have m2 := traverse_p_mono nm
        (moveStr " " (move tokPackage (handleComment d initState).2))
      simp only [moveStr_p, move_p, tokPackage_length] at m2
      have m3 := traverseList_p_mono ds
        (newline (traverse nm (moveStr " " (move tokPackage
          (handleComment d initState).2))).2)
      simp only [newline_p] at m3
      have hd := handleComment_within d initState
      have hn := traverse_within nm
        (moveStr " " (move tokPackage (handleComment d initState).2)) hun
      simp only [moveStr_p, move_p, tokPackage_length] at hn
      have ha := traverseLoop_within
        (newline (traverse nm (moveStr " " (move tokPackage
          (handleComment d initState).2))).2).listSizeStack.length ds
        (pushFrame ds.length (newline (traverse nm (moveStr " " (move tokPackage
          (handleComment d initState).2))).2)) hud
      rw [pushFrame_p, ← traverseList_p, ← traverseList_fst] at ha
      simp only [newline_p] at ha
      simp only [fieldsWithin, Bool.and_eq_true]
      refine ⟨⟨⟨⟨⟨?_, ?_⟩, ?_⟩, ?_⟩, ?_⟩, ?_⟩
      · exact commentWithin_widen le_rfl (by omega) hd
      · exact posOk_between (by omega) (by omega)
      · exact fieldsWithin_widen _ (by omega) (by omega) hn
      · exact fieldsWithinList_widen _ (by omega) le_rfl ha
      · exact posOk_between le_rfl (by omega)
      · exact posOk_between (by omega) le_rfl
  · have hf' : isFile f = false := by revert hf; cases isFile f <;> simp
    rw [setFileStart_nonfile hf']
    rw [setFileEnd_nonfile (by rw [traverse_isFile]; exact hf'),
      setComments_nonfile (by rw [traverse_isFile]; exact hf')]
    exact traverse_within f initState hu

theorem mem_newline_of_mem {o : Nat} {t : PosState} (h : o ∈ t.lines) :
    o ∈ (newline t).lines := by
  rcases newline_lines t with hl | hl <;> rw [hl]
  · exact h
  · exact List.mem_append_left _ h

theorem listSize_congr {a b : PosState} (h : a.listSizeStack = b.listSizeStack) :
    listSize a = listSize b := by
  simp [listSize, h]

theorem flat_hasNestedComposite {elts : List Node} (h : elts.all flatScalar = true) :
    hasNestedComposite elts = false := by
  rw [hasNestedComposite]
  rw [List.any_eq_false]
  intro n hn
  have := (List.all_eq_true.mp h) n hn
  cases n <;> simp_all [flatScalar]

theorem flat_hasNestedKeyValue {elts : List Node} (h : elts.all flatScalar = true) :
    hasNestedKeyValue elts = false := by
  rw [hasNestedKeyValue]
  rw [List.any_eq_false]
  intro n hn
  have := (List.all_eq_true.mp h) n hn
  cases n <;> simp_all [flatScalar, isKeyValueExpr]

/-- In a parenthesized declaration group the traversal records exactly
two new line starts: one right after the opening parenthesis and one
right after the closing parenthesis.  (The specs themselves, when they
are one-line `var`/`const` specs, contribute none.) -/
theorem C5_paren_group_lines (d : Option CommentGroup) (tp : Nat) (tok : String)
    (lp rp : Nat) (specs : List Node) (s : PosState) (hok : StateOk s)
    (hlp : lp ≠ 0) (hrp : rp ≠ 0) (hspecs : specs.all simpleSpec = true)
    (hsz : (traverse (.genDecl d tp tok lp specs rp) s).2.p ≤ fileSize) :
    (traverse (.genDecl d tp tok lp specs rp) s).2.lines =
      (handleComment d s).2.lines
        ++ [(move tok (handleComment d s).2).p + 1,
            (traverseList specs (newline (move tokLParen
              (move tok (handleComment d s).2)))).2.p + 1] := by
  rw [traverse_genDecl_eq] at hsz ⊢
  dsimp only at hsz ⊢
  rw [if_pos hlp, if_pos hrp] at hsz ⊢
  dsimp only at hsz ⊢
  have hok1 : StateOk (handleComment d s).2 := handleComment_StateOk hok
  have hok2 : StateOk (move tokLParen (move tok (handleComment d s).2)) :=
    stepsOk_StateOk.moveStr _ _ (stepsOk_StateOk.moveStr _ _ hok1)
  simp only [newline_p, move_p, tokLParen_length, tokRParen_length] at hsz
  have m3 := traverseList_p_mono specs
    (newline (move tokLParen (move tok (handleComment d s).2)))
  simp only [newline_p, move_p, tokLParen_length] at m3
  have hrec1 : (newline (move tokLParen (move tok (handleComment d s).2))).lines =
      (handleComment d s).2.lines ++ [(move tok (handleComment d s).2).p + 1] := by
    have := newline_records hok2 (by simp only [move_p, tokLParen_length]; omega)
    simpa only [move_lines, moveStr_lines, move_p, tokLParen_length] using this
  have hok3 : StateOk (newline (move tokLParen (move tok (handleComment d s).2))) :=
    hok2.newline
  have hok4 : StateOk (traverseList specs (newline (move tokLParen
      (move tok (handleComment d s).2)))).2 := traverseList_StateOk hok3
  have hok5 : StateOk (move tokRParen (traverseList specs (newline (move tokLParen
      (move tok (handleComment d s).2)))).2) := stepsOk_StateOk.moveStr _ _ hok4
  have hrec2 : (newline (move tokRParen (traverseList specs (newline (move tokLParen
      (move tok (handleComment d s).2)))).2)).lines =
      (traverseList specs (newline (move tokLParen
        (move tok (handleComment d s).2)))).2.lines
        ++ [(traverseList specs (newline (move tokLParen
          (move tok (handleComment d s).2)))).2.p + 1] := by
    have := newline_records hok5 (by simp only [move_p, tokRParen_length]; omega)
    simpa only [move_lines, moveStr_lines, move_p, tokRParen_length] using this
  rw [hrec2, traverseList_simpleSpec_lines specs hspecs, hrec1, List.append_assoc]
  rfl

/-- Layout of a composite literal whose elements are all flat scalars:
with at most 3 elements no line start lies between the braces (the
whole literal sits on one line, only a trailing newline may follow);
with 4 or more elements exactly three line starts are recorded — right
after the opening brace, right before the closing brace and right after
it — and none between consecutive elements. -/
theorem C8_scalar_layout (typ : Option Node) (lb rb : Nat) (elts : List Node)
    (s : PosState) (hok : StateOk s) (hflat : elts.all flatScalar = true)
    (hsz : (traverse (.compositeLit typ lb elts rb) s).2.p ≤ fileSize) :
    (elts.length ≤ 3 → ∀ o ∈ (traverse (.compositeLit typ lb elts rb) s).2.lines,
        o ∈ (traverseOpt typ s).2.lines ∨
        (traverseList elts (move tokLBrace (traverseOpt typ s).2)).2.p < o) ∧
    (4 ≤ elts.length →
      (traverse (.compositeLit typ lb elts rb) s).2.lines =
        (traverseOpt typ s).2.lines ++
          [(traverseOpt typ s).2.p + 1,
           (traverseList elts (newline (move tokLBrace (traverseOpt typ s).2))).2.p,
           (traverseList elts (newline (move tokLBrace (traverseOpt typ s).2))).2.p + 2]) := by
  rw [traverse_compositeLit_eq] at hsz ⊢
  dsimp only at hsz ⊢
  constructor
  · intro h3
    have hcond : ¬ ((hasNestedComposite elts
        || (hasNestedKeyValue elts && !decide (elts.length = 1))
        || decide (4 ≤ elts.length)) = true) := by
      simp [flat_hasNestedComposite hflat, flat_hasNestedKeyValue hflat]
      omega
    rw [if_neg hcond, if_neg hcond]
    intro o ho
    have hsc : (traverseList elts (move tokLBrace (traverseOpt typ s).2)).2.lines =
        (traverseOpt typ s).2.lines := by
      rw [traverseList_scalar_lines elts hflat]
      simp
    revert ho
    split
    · intro ho
      rcases mem_newline_lines ho with h | h
      · left
        rw [move_lines, hsc] at h
        exact h
      · right
        rw [h]
        simp only [move_p, tokRBrace_length]
        omega
    · intro ho
      left
      rw [move_lines, hsc] at ho
      exact ho
  · intro h4
    have hcond : (hasNestedComposite elts
        || (hasNestedKeyValue elts && !decide (elts.length = 1))
        || decide (4 ≤ elts.length)) = true := by
      simp [h4]
    rw [if_pos hcond, if_pos hcond] at hsz ⊢
    have hok1 : StateOk (traverseOpt typ s).2 := traverseOpt_StateOk hok
    have hok2 : StateOk (move tokLBrace (traverseOpt typ s).2) :=
      stepsOk_StateOk.moveStr _ _ hok1
    have hok3 : StateOk (newline (move tokLBrace (traverseOpt typ s).2)) := hok2.newline
    have hok4 : StateOk (traverseList elts (newline (move tokLBrace
        (traverseOpt typ s).2))).2 := traverseList_StateOk hok3
    have hok5 : StateOk (newline (traverseList elts (newline (move tokLBrace
        (traverseOpt typ s).2))).2) := hok4.newline
    have hok6 : StateOk (move tokRBrace (newline (traverseList elts (newline (move tokLBrace
        (traverseOpt typ s).2))).2)) := stepsOk_StateOk.moveStr _ _ hok5
    have m3 := traverseList_p_mono elts (newline (move tokLBrace (traverseOpt typ s).2))
    simp only [newline_p, move_p, tokLBrace_length] at m3
    rw [if_pos (show (decide (4 ≤ elts.length) || decide (listSize (move tokRBrace
        (newline (traverseList elts (newline (move tokLBrace
          (traverseOpt typ s).2))).2)) > 0)) = true by simp [h4])] at hsz ⊢
    simp only [newline_p, move_p, tokRBrace_length, tokLBrace_length] at hsz
    have hrec1 : (newline (move tokLBrace (traverseOpt typ s).2)).lines =
        (traverseOpt typ s).2.lines ++ [(traverseOpt typ s).2.p + 1] := by
      have := newline_records hok2 (by simp only [move_p, tokLBrace_length]; omega)
      simpa only [move_lines, moveStr_lines, move_p, tokLBrace_length] using this
    have hrec2 : (newline (traverseList elts (newline (move tokLBrace
        (traverseOpt typ s).2))).2).lines =
        (traverseList elts (newline (move tokLBrace (traverseOpt typ s).2))).2.lines
          ++ [(traverseList elts (newline (move tokLBrace
            (traverseOpt typ s).2))).2.p] := by
      exact newline_records hok4 (by omega)
    have hrec3 : (newline (move tokRBrace (newline (traverseList elts (newline (move tokLBrace
        (traverseOpt typ s).2))).2))).lines =
        (newline (traverseList elts (newline (move tokLBrace
          (traverseOpt typ s).2))).2).lines
          ++ [(traverseList elts (newline (move tokLBrace
            (traverseOpt typ s).2))).2.p + 2] := by
      have := newline_records hok6 (by simp only [move_p, newline_p, tokRBrace_length]; omega)
      simpa only [move_lines, moveStr_lines, move_p, newline_p, tokRBrace_length] using this
    rw [hrec3, hrec2, traverseList_scalar_lines elts hflat, hrec1]
    simp only [List.append_assoc, List.cons_append, List.nil_append]

/-- The newline decisions of the composite-literal rule, characterized
on the line table: a line starts right after the opening brace exactly
when the code's `doNewlines` condition holds; when it holds the closing
brace also sits at a line start; and a line starts right after the
closing brace exactly when the element count is at least 4 or the
literal is being traversed inside some sibling list. -/
theorem C2_newline_conditions (typ : Option Node) (lb rb : Nat) (elts : List Node)
    (s : PosState) (hok : StateOk s) (hbal : Bal s)
    (hw : wfExprList elts = true)
    (hsz : (traverse (.compositeLit typ lb elts rb) s).2.p ≤ fileSize) :
    ((traverseOpt typ s).2.p + 1 ∈ (traverse (.compositeLit typ lb elts rb) s).2.lines
      ↔ (hasNestedComposite elts
          || (hasNestedKeyValue elts && !decide (elts.length = 1))
          || decide (4 ≤ elts.length)) = true) ∧
    ((hasNestedComposite elts || (hasNestedKeyValue elts && !decide (elts.length = 1))
        || decide (4 ≤ elts.length)) = true →
      ∃ o ∈ (traverse (.compositeLit typ lb elts rb) s).2.lines,
        o + 1 = rbraceOf (traverse (.compositeLit typ lb elts rb) s).1) ∧
    (rbraceOf (traverse (.compositeLit typ lb elts rb) s).1 + 1
        ∈ (traverse (.compositeLit typ lb elts rb) s).2.lines
      ↔ (4 ≤ elts.length ∨ 0 < listSize s)) := by
  rw [traverse_compositeLit_eq] at hsz ⊢
  dsimp only at hsz ⊢
  simp only [rbraceOf]
  have hok1 : StateOk (traverseOpt typ s).2 := traverseOpt_StateOk hok
  obtain ⟨f1, f2⟩ := traverseOpt_stacks typ s hbal
  have hbal1 : Bal (traverseOpt typ s).2 := hbal.of_eqs f1 f2
  by_cases hdnb : (hasNestedComposite elts
      || (hasNestedKeyValue elts && !decide (elts.length = 1))
      || decide (4 ≤ elts.length)) = true
  · rw [if_pos hdnb, if_pos hdnb] at hsz ⊢
    have hok2 : StateOk (move tokLBrace (traverseOpt typ s).2) :=
      stepsOk_StateOk.moveStr _ _ hok1
    have m3 := traverseList_p_mono elts (newline (move tokLBrace (traverseOpt typ s).2))
    simp only [newline_p, move_p, tokLBrace_length] at m3
    have hbound := le_trans (ite_newline_p_ge _ _) hsz
    simp only [move_p, newline_p, tokRBrace_length] at hbound
    have hrec1 : (newline (move tokLBrace (traverseOpt typ s).2)).lines =
        (traverseOpt typ s).2.lines ++ [(traverseOpt typ s).2.p + 1] := by
      have := newline_records hok2 (by simp only [move_p, tokLBrace_length]; omega)
      simpa only [move_lines, moveStr_lines, move_p, tokLBrace_length] using this
    have hok3 := hok2.newline
    have hok4 : StateOk (traverseList elts (newline (move tokLBrace
        (traverseOpt typ s).2))).2 := traverseList_StateOk hok3
    have hrec2 : (newline (traverseList elts (newline (move tokLBrace
        (traverseOpt typ s).2))).2).lines =
        (traverseList elts (newline (move tokLBrace (traverseOpt typ s).2))).2.lines
          ++ [(traverseList elts (newline (move tokLBrace
            (traverseOpt typ s).2))).2.p] :=
      newline_records hok4 (by omega)
    have hok5 := hok4.newline
    have hok6 : StateOk (move tokRBrace (newline (traverseList elts (newline (move tokLBrace
        (traverseOpt typ s).2))).2)) := stepsOk_StateOk.moveStr _ _ hok5
    obtain ⟨tl, htl⟩ :=
      traverseList_lines_ext elts (newline (move tokLBrace (traverseOpt typ s).2))
    have hstk : (move tokRBrace (newline (traverseList elts (newline (move tokLBrace
        (traverseOpt typ s).2))).2)).listSizeStack = s.listSizeStack := by
      obtain ⟨e1, e2⟩ := traverseList_stacks elts
        (newline (move tokLBrace (traverseOpt typ s).2))
        (hbal1.of_eqs (by simp) (by simp))
      simp only [move_sizeStack, newline_sizeStack]
      rw [e1]
      simp only [newline_sizeStack, move_sizeStack]
      exact f1
    have hls : listSize (move tokRBrace (newline (traverseList elts (newline (move tokLBrace
        (traverseOpt typ s).2))).2)) = listSize s := listSize_congr hstk
    have h2 : (traverseOpt typ s).2.p + 1 ∈ (traverseList elts (newline (move tokLBrace
        (traverseOpt typ s).2))).2.lines := by
      rw [htl, hrec1]
      simp
    have h4 : (traverseOpt typ s).2.p + 1 ∈ (move tokRBrace (newline (traverseList elts
        (newline (move tokLBrace (traverseOpt typ s).2))).2)).lines := by
      rw [move_lines]
      exact mem_newline_of_mem h2
    refine ⟨iff_of_true ?_ hdnb, fun _ => ?_, ?_⟩
    · split
      · exact mem_newline_of_mem h4
      · exact h4
    · refine ⟨(traverseList elts (newline (move tokLBrace
        (traverseOpt typ s).2))).2.p, ?_, by simp⟩
      have hm : (traverseList elts (newline (move tokLBrace
          (traverseOpt typ s).2))).2.p ∈ (move tokRBrace (newline (traverseList elts
          (newline (move tokLBrace (traverseOpt typ s).2))).2)).lines := by
        rw [move_lines, hrec2]
        simp
      split
      · exact mem_newline_of_mem hm
      · exact hm
    · simp only [newline_p]
      by_cases hc : (4 ≤ elts.length ∨ 0 < listSize s)
      · refine iff_of_true ?_ hc
        have hC : (decide (4 ≤ elts.length) || decide (listSize (move tokRBrace
            (newline (traverseList elts (newline (move tokLBrace
              (traverseOpt typ s).2))).2)) > 0)) = true := by
          rw [hls]
          simpa using hc
        rw [if_pos hC] at hsz ⊢
        have hrec3 := newline_records hok6 (by
          simp only [move_p, newline_p, tokRBrace_length] at hsz ⊢
          omega)
        rw [hrec3]
        simp [move_p, newline_p, tokRBrace_length]
      · refine iff_of_false ?_ hc
        have hC : ¬ ((decide (4 ≤ elts.length) || decide (listSize (move tokRBrace
            (newline (traverseList elts (newline (move tokLBrace
              (traverseOpt typ s).2))).2)) > 0)) = true) := by
          rw [hls]
          simpa using hc
        rw [if_neg hC]
        intro hmem
        rw [move_lines] at hmem
        have := hok5.2.2 _ hmem
        simp only [newline_p] at this
        omega
  · rw [if_neg hdnb, if_neg hdnb] at hsz ⊢
    have hok2 : StateOk (move tokLBrace (traverseOpt typ s).2) :=
      stepsOk_StateOk.moveStr _ _ hok1
    have m3 := traverseList_p_mono elts (move tokLBrace (traverseOpt typ s).2)
    simp only [move_p, tokLBrace_length] at m3
    have hbound := le_trans (ite_newline_p_ge _ _) hsz
    simp only [move_p, tokRBrace_length] at hbound
    have hok4 : StateOk (traverseList elts (move tokLBrace
        (traverseOpt typ s).2)).2 := traverseList_StateOk hok2
    have hok6 : StateOk (move tokRBrace (traverseList elts (move tokLBrace
        (traverseOpt typ s).2)).2) := stepsOk_StateOk.moveStr _ _ hok4
    have hstk : (move tokRBrace (traverseList elts (move tokLBrace
        (traverseOpt typ s).2)).2).listSizeStack = s.listSizeStack := by
      obtain ⟨e1, e2⟩ := traverseList_stacks elts
        (move tokLBrace (traverseOpt typ s).2)
        (hbal1.of_eqs (by simp) (by simp))
      simp only [move_sizeStack]
      rw [e1]
      simp only [move_sizeStack]
      exact f1
    have hls : listSize (move tokRBrace (traverseList elts (move tokLBrace
        (traverseOpt typ s).2)).2) = listSize s := listSize_congr hstk
    refine ⟨iff_of_false ?_ hdnb, fun h => absurd h hdnb, ?_⟩
    · intro hmem
      have hm6 : (traverseOpt typ s).2.p + 1 ∈ (move tokRBrace (traverseList elts
          (move tokLBrace (traverseOpt typ s).2)).2).lines ∨
          (traverseOpt typ s).2.p + 1 = (move tokRBrace (traverseList elts
          (move tokLBrace (traverseOpt typ s).2)).2).p := by
        revert hmem
        split
        · exact fun hm => mem_newline_lines hm
        · exact fun hm => Or.inl hm
      rcases hm6 with hm | hm
      · rw [move_lines] at hm
        rcases traverseList_lines_strict elts hw
          (move tokLBrace (traverseOpt typ s).2) _ hm with hm' | hm'
        · rw [move_lines] at hm'
          have := hok1.2.2 _ hm'
          omega
        · simp only [move_p, tokLBrace_length] at hm'
          omega
      · simp only [move_p, tokRBrace_length] at hm
        omega
    · by_cases hc : (4 ≤ elts.length ∨ 0 < listSize s)
      · refine iff_of_true ?_ hc
        have hC : (decide (4 ≤ elts.length) || decide (listSize (move tokRBrace
            (traverseList elts (move tokLBrace (traverseOpt typ s).2)).2) > 0)) = true := by
          rw [hls]
          simpa using hc
        rw [if_pos hC] at hsz ⊢
        have hrec3 := newline_records hok6 (by
          simp only [move_p, newline_p, tokRBrace_length] at hsz ⊢
          omega)
        rw [hrec3]
        simp [move_p, tokRBrace_length]
      · refine iff_of_false ?_ hc
        have hC : ¬ ((decide (4 ≤ elts.length) || decide (listSize (move tokRBrace
            (traverseList elts (move tokLBrace (traverseOpt typ s).2)).2) > 0)) = true) := by
          rw [hls]
          simpa using hc
        rw [if_neg hC]
        intro hmem
        rw [move_lines] at hmem
        have := hok4.2.2 _ hmem
        omega

theorem positionComments_comments (cs : List Comment) (s : PosState) :
    (positionComments cs s).2.comments = s.comments := by
  induction cs generalizing s with
  | nil => rfl
  | cons c rest ih =>
      rw [positionComments_cons_snd]
      rw [ih]
      simp

theorem handleComment_some_eq (g : CommentGroup) (s : PosState) :
    handleComment (some g) s =
      (let s1 := if lineStart s (fileLine s s.p) ≠ s.p then newline s else s
       let r := positionComments g.list s1
       (some ⟨r.1⟩, { r.2 with comments := r.2.comments ++ [⟨r.1⟩] })) := rfl

/-- What `handleComment` does with a present doc group: the positioned
group is registered at the end of the accumulated comment list; it has
one record per comment line; every line's position sits at a recorded
line start, the positions strictly increase, and a line start is
recorded right after each line's text (the newline advanced after it);
if the counter was not at a recorded line start a newline is forced
first (the old counter becomes a line start), and if it was, the first
comment line is placed exactly at the counter. -/
theorem C6_comment_attachment (g : CommentGroup) (s : PosState) (hok : StateOk s)
    (hsz : (handleComment (some g) s).2.p ≤ fileSize) :
    ∃ g' : CommentGroup,
      (handleComment (some g) s).1 = some g' ∧
      (handleComment (some g) s).2.comments = s.comments ++ [g'] ∧
      g'.list.length = g.list.length ∧
      (∀ c ∈ g'.list, IsLineStartPos (handleComment (some g) s).2.lines c.slash) ∧
      (∀ c ∈ g'.list, c.slash + c.text.length ∈ (handleComment (some g) s).2.lines) ∧
      (∀ c ∈ g'.list, s.p ≤ c.slash) ∧
      List.Chain' (fun a b => a.slash < b.slash) g'.list ∧
      (lineStart s (fileLine s s.p) ≠ s.p → s.p ∈ (handleComment (some g) s).2.lines) ∧
      (lineStart s (fileLine s s.p) = s.p → ∀ c ∈ g'.list.head?, c.slash = s.p) := by
  by_cases hal : lineStart s (fileLine s s.p) ≠ s.p
  · have hsz' : (positionComments g.list (newline s)).2.p ≤ fileSize := by
      rw [handleComment_some_eq] at hsz
      dsimp only at hsz
      rw [if_pos hal] at hsz
      exact hsz
    have hplt : s.p < fileSize := by
      have h1 := positionComments_p_mono g.list (newline s)
      simp only [newline_p] at h1
      omega
    have hrec : (newline s).lines = s.lines ++ [s.p] := newline_records hok hplt
    have hok1 : StateOk (newline s) := hok.newline
    have hal1 : IsLineStartPos (newline s).lines (newline s).p := by
      refine ⟨s.p, ?_, by simp⟩
      rw [hrec]
      simp
    obtain ⟨hlen, halig, hnl, hlb, hch⟩ :=
      positionComments_spec g.list (newline s) hok1 hal1 hsz'
    obtain ⟨tl, htl⟩ := positionComments_lines_ext g.list (newline s)
    refine ⟨⟨(positionComments g.list (newline s)).1⟩, ?_, ?_, hlen, ?_, ?_, ?_, hch, ?_, ?_⟩
    · rw [handleComment_some_eq]
      try dsimp only
      rw [if_pos hal]
    · rw [handleComment_some_eq]
      try dsimp only
      rw [if_pos hal]
      try dsimp only
      rw [positionComments_comments]
      simp
    · intro c hc
      have := halig c hc
      rw [handleComment_some_eq]
      try dsimp only
      rw [if_pos hal]
      exact this
    · intro c hc
      have := hnl c hc
      rw [handleComment_some_eq]
      try dsimp only
      rw [if_pos hal]
      exact this
    · intro c hc
      have := hlb c hc
      simp only [newline_p] at this
      omega
    · intro _
      rw [handleComment_some_eq]
      try dsimp only
      rw [if_pos hal]
      try dsimp only
      rw [htl, hrec]
      simp
    · intro h
      exact absurd h hal
  · have hal' : lineStart s (fileLine s s.p) = s.p := by
      by_contra h
      exact hal h
    have hsz' : (positionComments g.list s).2.p ≤ fileSize := by
      rw [handleComment_some_eq] at hsz
      dsimp only at hsz
      rw [if_neg hal] at hsz
      exact hsz
    have hal1 : IsLineStartPos s.lines s.p := aligned_mem hok hal'
    obtain ⟨hlen, halig, hnl, hlb, hch⟩ :=
      positionComments_spec g.list s hok hal1 hsz'
    refine ⟨⟨(positionComments g.list s).1⟩, ?_, ?_, hlen, ?_, ?_, hlb, hch, ?_, ?_⟩
    · rw [handleComment_some_eq]
      try dsimp only
      rw [if_neg hal]
    · rw [handleComment_some_eq]
      try dsimp only
      rw [if_neg hal]
      try dsimp only
      try rw [positionComments_comments]
      try simp
    · intro c hc
      have := halig c hc
      rw [handleComment_some_eq]
      try dsimp only
      rw [if_neg hal]
      exact this
    · intro c hc
      have := hnl c hc
      rw [handleComment_some_eq]
      try dsimp only
      rw [if_neg hal]
      exact this
    · intro h
      exact absurd h hal
    · intro _ c hc
      cases hgl : g.list with
      | nil =>
          rw [hgl] at hc
          simp [positionComments] at hc
      | cons c0 rest =>
          rw [hgl] at hc
          have : positionComments (c0 :: rest) s =
              (⟨s.p, c0.text⟩ :: (positionComments rest (newline (moveStr c0.text s))).1,
                (positionComments rest (newline (moveStr c0.text s))).2) := by
            simp only [positionComments]
          rw [this] at hc
          simp only [List.head?_cons, Option.mem_def, Option.some.injEq] at hc
          rw [← hc]

/-- C1 (counterexample): the claim says no two observable positions
collide, but on `package m; var _ = f()` the zero-argument call's
opening and closing parentheses both receive position 16 — the counter
does not advance between the two assignments. -/
theorem C1_equal_parens :
    ∃ q, callParens (rewritePositions c1ex).1 = [(q, q)] :=
  ⟨16, by decide⟩

/-- C1 (amended): the position counter never decreases across any
sub-traversal, and the line-start table of a full run is strictly
increasing — so line starts are pairwise distinct — but node position
fields taken before and after a zero-width step may coincide. -/
theorem C1_monotone_lines (f n : Node) (s : PosState) :
    s.p ≤ (traverse n s).2.p ∧
    List.Pairwise (· < ·) (rewritePositions f).2.lines :=
  ⟨traverse_p_mono n s, List.chain'_iff_pairwise.mp (rewritePositions_StateOk f).2.1⟩

/-- C2 (counterexample): `T{k: v, w}` has exactly one key-value element
with a non-composite value and two elements overall, nothing nested and
fewer than four elements, so the claim's condition ("more than one
key-value element with non-composite values") is false — yet a line
start is recorded immediately after the opening brace at 16: the code
fires on "some key-value element and more than one element". -/
theorem C2_single_keyvalue :
    c2elts.length = 2 ∧ kvFlatCount c2elts = 1 ∧ hasNestedComposite c2elts = false ∧
    compositeBraces (rewritePositions c2ex).1 = [(16, 24)] ∧
    16 + 1 ∈ (rewritePositions c2ex).2.lines :=
  ⟨by decide, by decide, by decide, by decide, by decide⟩

/-- C2 (witness): the amended theorem applied to the literal
`T{k: v, w}`-style element list traversed from the initial state. -/
theorem C2_newline_conditions_w :
    StateOk initState ∧ wfExprList c2elts = true ∧
    (((traverseOpt none initState).2.p + 1
        ∈ (traverse (.compositeLit none 0 c2elts 0) initState).2.lines
      ↔ (hasNestedComposite c2elts
          || (hasNestedKeyValue c2elts && !decide (c2elts.length = 1))
          || decide (4 ≤ c2elts.length)) = true) ∧
    ((hasNestedComposite c2elts || (hasNestedKeyValue c2elts && !decide (c2elts.length = 1))
        || decide (4 ≤ c2elts.length)) = true →
      ∃ o ∈ (traverse (.compositeLit none 0 c2elts 0) initState).2.lines,
        o + 1 = rbraceOf (traverse (.compositeLit none 0 c2elts 0) initState).1) ∧
    (rbraceOf (traverse (.compositeLit none 0 c2elts 0) initState).1 + 1
        ∈ (traverse (.compositeLit none 0 c2elts 0) initState).2.lines
      ↔ (4 ≤ c2elts.length ∨ 0 < listSize initState))) :=
  ⟨initState_StateOk, by decide,
    C2_newline_conditions none 0 0 c2elts initState initState_StateOk rfl
      (by decide) (by decide)⟩

/-- C3: after synthesis every mandatory position field of the tree is
positive, the line table is non-empty, a file root's recorded start is
1 and its end is the final counter, which is itself positive. -/
theorem C3_positive_positions (f : Node) :
    mandatoryPos (rewritePositions f).1 = true ∧
    (rewritePositions f).2.lines ≠ [] ∧
    rootSpanOk (rewritePositions f).1 (rewritePositions f).2.p = true ∧
    0 < (rewritePositions f).2.p :=
  ⟨rewritePositions_mandatory f, (rewritePositions_StateOk f).lines_ne_nil,
    rewritePositions_rootSpan f, (rewritePositions_StateOk f).p_pos⟩

/-- C4 (code bug): on `package m; var x struct { y struct { z int } }`
the inner struct's field list closes at 36 and is followed by the two
newlines of aggregate mode (line starts 37 and 38), but the outer
struct's field list closes at 39 and is followed by none (neither 40
nor 41 is a line start): the nested struct reset the shared
aggregate-mode flag before the outer closing delimiter was visited,
exactly the incorrect layout the spec's design note warns about. -/
theorem C4_nested_struct_bug :
    structClosings (rewritePositions c4ex).1 = [39, 36] ∧
    (rewritePositions c4ex).2.lines = [0, 10, 22, 31, 37, 38] ∧
    37 ∈ (rewritePositions c4ex).2.lines ∧ 38 ∈ (rewritePositions c4ex).2.lines ∧
    40 ∉ (rewritePositions c4ex).2.lines ∧ 41 ∉ (rewritePositions c4ex).2.lines :=
  ⟨by decide, by decide, by decide, by decide, by decide, by decide⟩

/-- C5 (counterexample): in the parenthesized group
`var ( a = 1; b = 2 )` the two specs' names are positioned at 16 and 18
and no recorded line begins after the first spec and at or before the
second (line starts are only 1, 11, 16 and 22): the two specs share one
line, refuting "one spec per line". -/
theorem C5_specs_share_line :
    specNamePositions (rewritePositions c5ex).1 = [16, 18] ∧
    (rewritePositions c5ex).2.lines = [0, 10, 15, 21] ∧
    ∀ o ∈ (rewritePositions c5ex).2.lines, o + 1 ≤ 16 ∨ 18 < o + 1 :=
  ⟨by decide, by decide, by decide⟩

/-- C5 (witness): the amended theorem applied to
`var ( a = 1; b = 2 )` from the initial state. -/
theorem C5_paren_group_lines_w :
    StateOk initState ∧ c5specs.all simpleSpec = true ∧
    (traverse (.genDecl none 0 "var" 3 c5specs 3) initState).2.lines =
      (handleComment none initState).2.lines
        ++ [(move "var" (handleComment none initState).2).p + 1,
            (traverseList c5specs (newline (move tokLParen
              (move "var" (handleComment none initState).2)))).2.p + 1] :=
  ⟨initState_StateOk, by decide,
    C5_paren_group_lines none 0 "var" 3 3 c5specs initState initState_StateOk
      (by decide) (by decide) (by decide) (by decide)⟩

/-- C6 (witness): the comment-attachment theorem applied to a two-line
doc group from the initial state. -/
theorem C6_comment_attachment_w :
    StateOk initState ∧
    (handleComment (some c6g) initState).2.p ≤ fileSize ∧
    (∃ g' : CommentGroup,
      (handleComment (some c6g) initState).1 = some g' ∧
      (handleComment (some c6g) initState).2.comments = initState.comments ++ [g'] ∧
      g'.list.length = c6g.list.length ∧
      (∀ c ∈ g'.list,
        IsLineStartPos (handleComment (some c6g) initState).2.lines c.slash) ∧
      (∀ c ∈ g'.list,
        c.slash + c.text.length ∈ (handleComment (some c6g) initState).2.lines) ∧
      (∀ c ∈ g'.list, initState.p ≤ c.slash) ∧
      List.Chain' (fun a b => a.slash < b.slash) g'.list ∧
      (lineStart initState (fileLine initState initState.p) ≠ initState.p →
        initState.p ∈ (handleComment (some c6g) initState).2.lines) ∧
      (lineStart initState (fileLine initState initState.p) = initState.p →
        ∀ c ∈ g'.list.head?, c.slash = initState.p)) :=
  ⟨initState_StateOk, by decide,
    C6_comment_attachment c6g initState initState_StateOk (by decide)⟩

/-- C7 (counterexample): on `package m; func f() {}` the declaration's
name is positioned at 11 while the `func` keyword of its type — the
position `go/ast` reports as the declaration's own start — is 12, so
the name child begins before its parent's span starts. -/
theorem C7_name_before_parent :
    funcDeclAnchors (rewritePositions c7ex).1 = [(11, 12)] ∧ 11 < 12 :=
  ⟨by decide, by decide⟩

/-- C7 (amended): on a tree whose position fields are all unset, every
position field assigned by a full run lies between the root's recorded
start boundary 1 and the recorded end boundary (the final counter). -/
theorem C7_fields_in_root_span (f : Node) (hu : allUnset f = true) :
    fieldsWithin 1 (rewritePositions f).2.p (rewritePositions f).1 = true :=
  rewritePositions_within f hu

/-- C7 (witness): the amended theorem applied to
`package m; func f() {}`. -/
theorem C7_fields_in_root_span_w :
    allUnset c7ex = true ∧
    fieldsWithin 1 (rewritePositions c7ex).2.p (rewritePositions c7ex).1 = true :=
  ⟨by decide, C7_fields_in_root_span c7ex (by decide)⟩

/-- C8 (counterexample): in `T{1, 2, 3, 4}` the four elements are
positioned consecutively at 18, 19, 20, 21 with no line start strictly
between the first and the last: with 4 or more elements the code does
not lay the elements out one per line — it only breaks after the
opening brace and before the closing one. -/
theorem C8_four_on_one_line :
    compositeEltPositions (rewritePositions c8ex).1 = [[18, 19, 20, 21]] ∧
    compositeBraces (rewritePositions c8ex).1 = [(16, 23)] ∧
    ∀ o ∈ (rewritePositions c8ex).2.lines, o + 1 ≤ 18 ∨ 21 < o + 1 :=
  ⟨by decide, by decide, by decide⟩

/-- C8 (witness): the amended theorem applied to the element list
`1, 2, 3, 4` traversed from the initial state. -/
theorem C8_scalar_layout_w :
    StateOk initState ∧ c8elts.all flatScalar = true ∧
    ((c8elts.length ≤ 3 →
        ∀ o ∈ (traverse (.compositeLit none 0 c8elts 0) initState).2.lines,
          o ∈ (traverseOpt none initState).2.lines ∨
          (traverseList c8elts (move tokLBrace (traverseOpt none initState).2)).2.p < o) ∧
    (4 ≤ c8elts.length →
      (traverse (.compositeLit none 0 c8elts 0) initState).2.lines =
        (traverseOpt none initState).2.lines ++
          [(traverseOpt none initState).2.p + 1,
           (traverseList c8elts (newline (move tokLBrace
             (traverseOpt none initState).2))).2.p,
           (traverseList c8elts (newline (move tokLBrace
             (traverseOpt none initState).2))).2.p + 2])) :=
  ⟨initState_StateOk, by decide,
    C8_scalar_layout none 0 0 c8elts initState initState_StateOk (by decide) (by decide)⟩

/-- C9: synthesis is a pure function of the input tree — structurally
equivalent inputs (equal trees in this embedding, which carries exactly
shape, kinds, names and literal texts) produce identical positions,
line table and comment order. -/
theorem C9_deterministic (f g : Node) (h : f = g) :
    rewritePositions f = rewritePositions g := by
  rw [h]

/-- C9 (witness): determinism applied at a concrete tree. -/
theorem C9_deterministic_w :
    c1ex = c1ex ∧ rewritePositions c1ex = rewritePositions c1ex :=
  ⟨rfl, C9_deterministic c1ex c1ex rfl⟩

/-- C10: the list-context discipline — a frame `{size, index 0}` is
pushed for a sibling list, the loop bumps the index at the frame's slot
once per element, both stacks leave any `traverseList` exactly as they
entered it (and keep equal lengths through any traversal), a full run
ends with both stacks empty, and on empty stacks the size and index
queries both answer `-1`. -/
theorem C10_stack_discipline (f : Node) (ns : List Node) (i k : Nat) (s : PosState)
    (hbal : Bal s) :
    (pushFrame k s).listSizeStack = s.listSizeStack ++ [k] ∧
    (pushFrame k s).listIndexStack = s.listIndexStack ++ [0] ∧
    (bumpIndex i s).listIndexStack
      = s.listIndexStack.set i (s.listIndexStack.getD i 0 + 1) ∧
    (traverseLoop s.listSizeStack.length ns (pushFrame ns.length s)).2.listSizeStack
      = (pushFrame ns.length s).listSizeStack ∧
    (traverseLoop s.listSizeStack.length ns (pushFrame ns.length s)).2.listIndexStack
      = bumpL s.listSizeStack.length ns.length (pushFrame ns.length s).listIndexStack ∧
    (traverse f s).2.listSizeStack.length = (traverse f s).2.listIndexStack.length ∧
    (traverseList ns s).2.listSizeStack = s.listSizeStack ∧
    (traverseList ns s).2.listIndexStack = s.listIndexStack ∧
    (rewritePositions f).2.listSizeStack = [] ∧
    (rewritePositions f).2.listIndexStack = [] ∧
    listSize (rewritePositions f).2 = -1 ∧
    index (rewritePositions f).2 = -1 := by
  obtain ⟨e1, e2⟩ := traverse_stacks f s hbal
  obtain ⟨l1, l2⟩ := traverseLoop_stacks s.listSizeStack.length ns
    (pushFrame ns.length s) (hbal.push ns.length)
  obtain ⟨t1, t2⟩ := traverseList_stacks ns s hbal
  have hz1 : (rewritePositions f).2.listSizeStack = [] := by
    rw [rewritePositions, positionTokens_eq]
    dsimp only
    obtain ⟨z1, _⟩ := traverse_stacks (setFileStart 1 f) initState rfl
    rw [z1]
    rfl
  have hz2 : (rewritePositions f).2.listIndexStack = [] := by
    rw [rewritePositions, positionTokens_eq]
    dsimp only
    obtain ⟨_, z2⟩ := traverse_stacks (setFileStart 1 f) initState rfl
    rw [z2]
    rfl
  refine ⟨rfl, rfl, rfl, l1, l2, ?_, t1, t2, hz1, hz2, ?_, ?_⟩
  · rw [e1, e2]
    exact hbal
  · simp [listSize, hz1]
  · simp [index, hz2]

/-- C10 (witness): the stack discipline applied to a one-element list
and a leaf tree from the initial (empty-stack) state. -/
theorem C10_stack_discipline_w :
    Bal initState ∧
    ((pushFrame 2 initState).listSizeStack = initState.listSizeStack ++ [2] ∧
    (pushFrame 2 initState).listIndexStack = initState.listIndexStack ++ [0] ∧
    (bumpIndex 0 initState).listIndexStack
      = initState.listIndexStack.set 0 (initState.listIndexStack.getD 0 0 + 1) ∧
    (traverseLoop initState.listSizeStack.length [Node.ident 0 "y"]
        (pushFrame [Node.ident 0 "y"].length initState)).2.listSizeStack
      = (pushFrame [Node.ident 0 "y"].length initState).listSizeStack ∧
    (traverseLoop initState.listSizeStack.length [Node.ident 0 "y"]
        (pushFrame [Node.ident 0 "y"].length initState)).2.listIndexStack
      = bumpL initState.listSizeStack.length [Node.ident 0 "y"].length
          (pushFrame [Node.ident 0 "y"].length initState).listIndexStack ∧
    (traverse (Node.ident 0 "x") initState).2.listSizeStack.length
      = (traverse (Node.ident 0 "x") initState).2.listIndexStack.length ∧
    (traverseList [Node.ident 0 "y"] initState).2.listSizeStack
      = initState.listSizeStack ∧
    (traverseList [Node.ident 0 "y"] initState).2.listIndexStack
      = initState.listIndexStack ∧
    (rewritePositions (Node.ident 0 "x")).2.listSizeStack = [] ∧
    (rewritePositions (Node.ident 0 "x")).2.listIndexStack = [] ∧
    listSize (rewritePositions (Node.ident 0 "x")).2 = -1 ∧
    index (rewritePositions (Node.ident 0 "x")).2 = -1) :=
  ⟨rfl, C10_stack_discipline (Node.ident 0 "x") [Node.ident 0 "y"] 0 2 initState rfl⟩

end Astpos
